import Mathlib

/-!
Verification of the cache-coherence engine of fuse-cache-mtime
(src/fuse_cache_mtime/main.py, class FuseCacheMtime).

Embedding conventions:
* A virtual path is a list of path components; `os.path.dirname` is
  `List.dropLast` and `os.path.basename` is the last component.  The
  PathMapper (`_source_path` / `_cache_path`) joins the virtual path onto a
  root, so in the model the source tree and the cache tree are simply keyed
  by virtual paths directly.
* A filesystem tree is an association list from paths to nodes; a node is a
  regular file (byte content, st_mtime) or a directory (st_mtime).  Bytes
  and timestamps are natural numbers.
* Python OSError values are modelled as `Except Nat` carrying the errno
  (ENOENT for a missing path, EISDIR for opening or copying a directory where
  a file is expected, EEXIST for mkdir over a file, ENOTDIR for listdir of a
  file).  Raising keeps all state mutations made before the raise, so every
  operation returns the post state together with the result.
* The two in-memory dicts dir_mtimes and file_mtimes are function maps;
  dict.pop(k, None) removes a key, dict get returns an Option.
* `fetches`/`copies` are ghost logs, appended chronologically: `fetches`
  records each call of `_fetch_file`, `copies` each actual `shutil.copy2`.
  They model the instrumentation counters / fetch-order log of the spec.
* `now` is the current OS clock used to stamp st_mtime on mutations;
  timestamps have coarse granularity so distinct mutations may share it.
-/

deriving instance DecidableEq for Except

namespace FuseCacheMtime

/-- Virtual path: list of path components relative to the mount root. -/
abbrev VPath := List String

/-- Last path component, as os.path.basename on a normalized path. -/
def basename (p : VPath) : String := (List.getLast? p).getD ""

def ENOENT : Nat := 2
def EEXIST : Nat := 17
def ENOTDIR : Nat := 20
def EISDIR : Nat := 21

/-- A node of a filesystem tree: a regular file with content and st_mtime,
or a directory with st_mtime. -/
inductive Node where
  | file (content : List Nat) (mtime : Nat)
  | dir (mtime : Nat)
deriving DecidableEq

/-- st_mtime of a node, as returned by os.stat. -/
def Node.mtime : Node → Nat
  | .file _ m => m
  | .dir m => m

/-- Replace the st_mtime of a node (used when the OS stamps a mutation). -/
def Node.withMtime : Node → Nat → Node
  | .file c _, t => .file c t
  | .dir _, t => .dir t

/-- A filesystem tree: association list from virtual paths to nodes. -/
abbrev FS := List (VPath × Node)

/-- Lookup of a path in a tree (first matching entry). -/
def FS.lookup : FS → VPath → Option Node
  | [], _ => none
  | e :: rest, p => if e.1 = p then some e.2 else FS.lookup rest p

/-- Remove every entry with the given key. -/
def FS.eraseKey : FS → VPath → FS
  | [], _ => []
  | e :: rest, p => if e.1 = p then FS.eraseKey rest p else e :: FS.eraseKey rest p

/-- Overwrite (or create) the entry at a path. -/
def FS.insert (fs : FS) (p : VPath) (n : Node) : FS :=
  (p, n) :: FS.eraseKey fs p

/-- Test os.path.isfile on a tree. -/
def FS.isFile (fs : FS) (p : VPath) : Bool :=
  match FS.lookup fs p with
  | some (.file _ _) => true
  | _ => false

/-- Whether an optional node is a directory. -/
def isDirN : Option Node → Bool
  | some (.dir _) => true
  | _ => false

/-- Whether an optional node is a regular file. -/
def isFileN : Option Node → Bool
  | some (.file _ _) => true
  | _ => false

/-- os.stat restricted to st_mtime: ENOENT when the path is absent. -/
def FS.statM (fs : FS) (p : VPath) : Except Nat Nat :=
  match FS.lookup fs p with
  | some n => .ok (Node.mtime n)
  | none => .error ENOENT

/-- Names of the immediate children of a directory (os.listdir result,
in association-list order). -/
def FS.listdir : FS → VPath → List String
  | [], _ => []
  | e :: rest, d =>
    if List.dropLast e.1 = d ∧ e.1 ≠ [] then basename e.1 :: FS.listdir rest d
    else FS.listdir rest d

/-- os.listdir with its error cases: ENOENT when absent, ENOTDIR on a file. -/
def FS.listdirE (fs : FS) (d : VPath) : Except Nat (List String) :=
  match FS.lookup fs d with
  | some (.dir _) => .ok (FS.listdir fs d)
  | some (.file _ _) => .error ENOTDIR
  | none => .error ENOENT

/-- Path(p).mkdir(parents=True, exist_ok=True), processed from the shallowest
prefix: each prefix of `d` (including `d` itself) is created when absent,
tolerated when already a directory, and EEXIST is raised when a regular file
occupies it.  The counter is the number of prefixes already processed. -/
def FS.makedirsUpto (fs : FS) (d : VPath) : Nat → Except Nat FS
  | 0 => .ok fs
  | n + 1 =>
    match FS.makedirsUpto fs d n with
    | .error e => .error e
    | .ok acc =>
      match FS.lookup acc (List.take (n + 1) d) with
      | some (.dir _) => .ok acc
      | some (.file _ _) => .error EEXIST
      | none => .ok ((List.take (n + 1) d, Node.dir 0) :: acc)

/-- Path(p).mkdir(parents=True, exist_ok=True) over all prefixes of d. -/
def FS.makedirsE (fs : FS) (d : VPath) : Except Nat FS :=
  FS.makedirsUpto fs d d.length

/-- Boolean path-prefix test on component lists. -/
def vpre : VPath → VPath → Bool
  | [], _ => true
  | _ :: _, [] => false
  | a :: as, b :: bs => decide (a = b) && vpre as bs

/-- Re-root a path from `old` to `nw` when `old` is a prefix of it. -/
def replacePref (old nw k : VPath) : VPath :=
  if vpre old k then nw ++ List.drop old.length k else k

/-- os.rename(old, nw) on a tree: whatever occupied nw is replaced, and the
whole subtree rooted at old is re-rooted at nw. -/
def FS.renameFS : FS → VPath → VPath → FS
  | [], _, _ => []
  | e :: rest, old, nw =>
    if vpre nw e.1 then FS.renameFS rest old nw
    else (replacePref old nw e.1, e.2) :: FS.renameFS rest old nw

/-- Stamp the st_mtime of the node at a path (no-op when absent). -/
def FS.touch : FS → VPath → Nat → FS
  | [], _, _ => []
  | e :: rest, q, t =>
    (if e.1 = q then (e.1, Node.withMtime e.2 t) else e) :: FS.touch rest q t

/-- Set a key of a freshness dict. -/
def mset (m : VPath → Option Nat) (p : VPath) (v : Nat) : VPath → Option Nat :=
  fun q => if q = p then some v else m q

/-- dict.pop(key, None) on a freshness dict. -/
def mpop (m : VPath → Option Nat) (p : VPath) : VPath → Option Nat :=
  fun q => if q = p then none else m q

/-- The whole state: source tree, cache tree, the two freshness dicts of
FuseCacheMtime.__init__, the ghost logs and the OS clock. -/
structure SysState where
  source : FS
  cache : FS
  dir_mtimes : VPath → Option Nat
  file_mtimes : VPath → Option Nat
  fetches : List VPath
  copies : List VPath
  now : Nat

/-- FuseCacheMtime._needs_refresh: stat the source parent directory (an
OSError makes it stale), then compare with dir_mtimes. -/
def needs_refresh (s : SysState) (p : VPath) : Bool :=
  match FS.statM s.source (List.dropLast p) with
  | .error _ => true
  | .ok cur =>
    match s.dir_mtimes (List.dropLast p) with
    | none => true
    | some cached => decide (cur ≠ cached)

/-- FuseCacheMtime._fetch_file: stat the source file (propagating ENOENT),
fast-path return when file_mtimes matches, otherwise mkdir the cache parent,
shutil.copy2 the source node over the cache path (copy2 onto an existing
directory copies into it under the source basename; copy2 of a source
directory raises IsADirectoryError), then record the observed mtime. -/
def fetch_file (s : SysState) (p : VPath) : SysState × Except Nat Unit :=
  let s1 := {s with fetches := s.fetches ++ [p]}
  match FS.lookup s1.source p with
  | none => (s1, .error ENOENT)
  | some node =>
    if s1.file_mtimes p = some (Node.mtime node) then (s1, .ok ())
    else
      match FS.makedirsE s1.cache (List.dropLast p) with
      | .error e => (s1, .error e)
      | .ok c1 =>
        match node with
        | .dir _ => ({s1 with cache := c1}, .error EISDIR)
        | .file content mt =>
          let c2 :=
            match FS.lookup c1 p with
            | some (.dir _) => FS.insert c1 (p ++ [basename p]) (.file content mt)
            | _ => FS.insert c1 p (.file content mt)
          ({s1 with cache := c2,
                    file_mtimes := mset s1.file_mtimes p mt,
                    copies := s1.copies ++ [p]}, .ok ())

/-- The for-loop of _refresh_dir over the remaining entries: fetch every
entry that is a regular source file, propagating the first error. -/
def fetchEntries (d : VPath) : List String → SysState → SysState × Except Nat Unit
  | [], s => (s, .ok ())
  | e :: rest, s =>
    if FS.isFile s.source (d ++ [e]) then
      match fetch_file s (d ++ [e]) with
      | (s', .ok _) => fetchEntries d rest s'
      | (s', .error err) => (s', .error err)
    else fetchEntries d rest s

/-- The tail of _refresh_dir after the priority step: run the loop, then
record the directory mtime observed before the listing. -/
def refreshFinish (s : SysState) (d : VPath) (entries : List String) (dirM : Nat) :
    SysState × Except Nat Unit :=
  match fetchEntries d entries s with
  | (s', .ok _) => ({s' with dir_mtimes := mset s'.dir_mtimes d dirM}, .ok ())
  | (s', .error e) => (s', .error e)

/-- FuseCacheMtime._refresh_dir: mkdir the cache directory, stat the source
directory (the OSError of a missing directory propagates), list it (listdir
errors are re-raised as FuseOSError with the same errno), fetch the priority
file first when its basename is listed and drop that basename from the
remaining entries, fetch the remaining regular files, and only then record
dir_mtimes with the mtime observed before the listing. -/
def refresh_dir (s : SysState) (d : VPath) (priority : Option VPath) :
    SysState × Except Nat Unit :=
  match FS.makedirsE s.cache d with
  | .error e => (s, .error e)
  | .ok c1 =>
    let s1 := {s with cache := c1}
    match FS.statM s1.source d with
    | .error e => (s1, .error e)
    | .ok dirM =>
      match FS.listdirE s1.source d with
      | .error e => (s1, .error e)
      | .ok entries =>
        match priority with
        | none => refreshFinish s1 d entries dirM
        | some pf =>
          if basename pf ∈ entries then
            match fetch_file s1 pf with
            | (s2, .ok _) => refreshFinish s2 d (List.erase entries (basename pf)) dirM
            | (s2, .error e) => (s2, .error e)
          else refreshFinish s1 d entries dirM

/-- The open/seek/read of FuseCacheMtime.read against the cache copy:
ENOENT when the cache copy is absent, EISDIR when it is a directory,
otherwise the byte range [offset, offset+size) of the cached content. -/
def readCache (s : SysState) (p : VPath) (size offset : Nat) :
    SysState × Except Nat (List Nat) :=
  match FS.lookup s.cache p with
  | none => (s, .error ENOENT)
  | some (.dir _) => (s, .error EISDIR)
  | some (.file c _) => (s, .ok (List.take size (List.drop offset c)))

/-- FuseCacheMtime.read: refresh the parent directory with the target as
priority file when _needs_refresh says so, then serve from the cache copy. -/
def read (s : SysState) (p : VPath) (size offset : Nat) :
    SysState × Except Nat (List Nat) :=
  if needs_refresh s p then
    match refresh_dir s (List.dropLast p) (some p) with
    | (s', .ok _) => readCache s' p size offset
    | (s', .error e) => (s', .error e)
  else readCache s p size offset

/-- The attribute record exposed by getattr, restricted to the metadata the
model carries; the remaining stat fields are constants of the host. -/
structure StatR where
  st_mtime : Nat
  st_size : Nat
  st_isdir : Bool
deriving DecidableEq

/-- The stat record of a node. -/
def Node.statR : Node → StatR
  | .file c m => ⟨m, c.length, false⟩
  | .dir m => ⟨m, 0, true⟩

/-- FuseCacheMtime.getattr: os.lstat of the cache copy when one exists, else
of the source path, whose OSError propagates. -/
def getattr (s : SysState) (p : VPath) : Except Nat StatR :=
  match FS.lookup s.cache p with
  | some n => .ok (Node.statR n)
  | none =>
    match FS.lookup s.source p with
    | some n => .ok (Node.statR n)
    | none => .error ENOENT

/-- Overwrite the byte range [offset, offset+len(data)) of a content,
zero-filling any gap beyond the end of file, as seek+write does. -/
def writeBytes (c : List Nat) (offset : Nat) (data : List Nat) : List Nat :=
  (List.take offset c ++ List.replicate (offset - c.length) 0)
    ++ (data ++ List.drop (offset + data.length) c)

/-- FuseCacheMtime.write: open the source r+b (ENOENT when absent, EISDIR on
a directory), write the range and stamp the source mtime, pop file and
parent-dir freshness, then mirror the same range into the cache copy when
one exists; opening a cache directory raises EISDIR, and that exception
propagates (there is no handler around the mirror step). -/
def write (s : SysState) (p : VPath) (data : List Nat) (offset : Nat) :
    SysState × Except Nat Nat :=
  match FS.lookup s.source p with
  | none => (s, .error ENOENT)
  | some (.dir _) => (s, .error EISDIR)
  | some (.file c _) =>
    let s1 := {s with
      source := FS.insert s.source p (.file (writeBytes c offset data) s.now),
      file_mtimes := mpop s.file_mtimes p,
      dir_mtimes := mpop s.dir_mtimes (List.dropLast p)}
    match FS.lookup s1.cache p with
    | none => (s1, .ok data.length)
    | some (.dir _) => (s1, .error EISDIR)
    | some (.file cc _) =>
      ({s1 with cache := FS.insert s1.cache p (.file (writeBytes cc offset data) s1.now)},
       .ok data.length)

/-- FuseCacheMtime.create: os.open with O_WRONLY|O_CREAT|O_TRUNC (EISDIR on
a directory, ENOENT when the parent is missing), then pop only the parent
directory freshness entry. -/
def create (s : SysState) (p : VPath) (mode : Nat) : SysState × Except Nat Nat :=
  match FS.lookup s.source p with
  | some (.dir _) => (s, .error EISDIR)
  | some (.file _ _) =>
    ({s with source := FS.insert s.source p (.file [] s.now),
             dir_mtimes := mpop s.dir_mtimes (List.dropLast p)}, .ok 0)
  | none =>
    match FS.lookup s.source (List.dropLast p) with
    | some (.dir _) =>
      ({s with source := FS.touch (FS.insert s.source p (.file [] s.now))
                           (List.dropLast p) s.now,
               dir_mtimes := mpop s.dir_mtimes (List.dropLast p)}, .ok 0)
    | _ => (s, .error ENOENT)

/-- FuseCacheMtime.rename: os.rename in the source (ENOENT when old is
absent or the parent of new is missing, EISDIR when new is an existing
directory; both parent directories get their mtime stamped), pop both parent
dir entries and the file entry of old, then, when a cache copy of old
exists, mkdir the cache parent of new and os.rename the cache copy. -/
def rename (s : SysState) (old nw : VPath) : SysState × Except Nat Unit :=
  match FS.lookup s.source old with
  | none => (s, .error ENOENT)
  | some _ =>
    match FS.lookup s.source nw with
    | some (.dir _) => (s, .error EISDIR)
    | _ =>
      match FS.lookup s.source (List.dropLast nw) with
      | some (.dir _) =>
        let s1 := {s with
          source := FS.touch (FS.touch (FS.renameFS s.source old nw)
                      (List.dropLast old) s.now) (List.dropLast nw) s.now,
          dir_mtimes := mpop (mpop s.dir_mtimes (List.dropLast old)) (List.dropLast nw),
          file_mtimes := mpop s.file_mtimes old}
        match FS.lookup s1.cache old with
        | none => (s1, .ok ())
        | some _ =>
          match FS.makedirsE s1.cache (List.dropLast nw) with
          | .error e => (s1, .error e)
          | .ok c1 =>
            match FS.lookup c1 nw with
            | some (.dir _) => ({s1 with cache := c1}, .error EISDIR)
            | _ => ({s1 with cache := FS.renameFS c1 old nw}, .ok ())
      | _ => (s, .error ENOENT)

/-! ### Basic lemmas about the filesystem model -/

theorem lookup_eraseKey {fs : FS} {p q : VPath} (h : q ≠ p) :
    FS.lookup (FS.eraseKey fs p) q = FS.lookup fs q := by
  induction fs with
  | nil => rfl
  | cons e rest ih =>
    simp only [FS.eraseKey]
    by_cases he : e.1 = p
    · have hne : e.1 ≠ q := by rw [he]; exact fun hq => h hq.symm
      rw [if_pos he]
      simp only [FS.lookup, if_neg hne]
      exact ih
    · rw [if_neg he]
      simp only [FS.lookup]
      rw [ih]

theorem lookup_insert (fs : FS) (p : VPath) (n : Node) :
    FS.lookup (FS.insert fs p n) p = some n := by
  simp [FS.insert, FS.lookup]

theorem lookup_insert_ne {fs : FS} {p q : VPath} (n : Node) (h : q ≠ p) :
    FS.lookup (FS.insert fs p n) q = FS.lookup fs q := by
  have hne : p ≠ q := fun e => h e.symm
  simp [FS.insert, FS.lookup, hne, lookup_eraseKey h]

theorem lookup_eq_none_iff {fs : FS} {p : VPath} :
    FS.lookup fs p = none ↔ ∀ e ∈ fs, e.1 ≠ p := by
  induction fs with
  | nil => simp [FS.lookup]
  | cons e rest ih =>
    simp only [FS.lookup]
    by_cases he : e.1 = p
    · rw [if_pos he]
      constructor
      · intro h; exact Option.noConfusion h
      · intro h; exact absurd he (h e (List.mem_cons_self _ _))
    · rw [if_neg he, ih]
      constructor
      · intro h e' he'
        rcases List.mem_cons.mp he' with h1 | h2
        · rw [h1]; exact he
        · exact h e' h2
      · intro h e' he'
        exact h e' (List.mem_cons_of_mem _ he')

theorem basename_concat (d : VPath) (a : String) : basename (d ++ [a]) = a := by
  simp [basename, List.getLast?_concat]

theorem dropLast_concat_basename {p : VPath} (hp : p ≠ []) :
    List.dropLast p ++ [basename p] = p := by
  have h := List.dropLast_concat_getLast hp
  simp only [basename, List.getLast?_eq_getLast p hp, Option.getD_some]
  exact h

theorem mem_listdir_of_lookup {fs : FS} {p : VPath} {n : Node}
    (h : FS.lookup fs p = some n) (hp : p ≠ []) :
    basename p ∈ FS.listdir fs (List.dropLast p) := by
  induction fs with
  | nil => simp [FS.lookup] at h
  | cons e rest ih =>
    simp only [FS.listdir]
    by_cases he : e.1 = p
    · rw [if_pos (by rw [he]; exact ⟨rfl, hp⟩), he]
      exact List.mem_cons_self _ _
    · simp only [FS.lookup, if_neg he] at h
      by_cases hd : List.dropLast e.1 = List.dropLast p ∧ e.1 ≠ []
      · rw [if_pos hd]
        exact List.mem_cons_of_mem _ (ih h)
      · rw [if_neg hd]
        exact ih h

theorem listdir_mem_key {fs : FS} {d : VPath} {a : String}
    (h : a ∈ FS.listdir fs d) : ∃ e ∈ fs, e.1 = d ++ [a] := by
  induction fs with
  | nil => simp [FS.listdir] at h
  | cons e rest ih =>
    simp only [FS.listdir] at h
    by_cases hd : List.dropLast e.1 = d ∧ e.1 ≠ []
    · rw [if_pos hd] at h
      rcases List.mem_cons.mp h with hb | h'
      · refine ⟨e, List.mem_cons_self _ _, ?_⟩
        rw [← hd.1, hb]
        exact (dropLast_concat_basename hd.2).symm
      · obtain ⟨e', he', hk⟩ := ih h'
        exact ⟨e', List.mem_cons_of_mem _ he', hk⟩
    · rw [if_neg hd] at h
      obtain ⟨e', he', hk⟩ := ih h
      exact ⟨e', List.mem_cons_of_mem _ he', hk⟩

theorem not_mem_listdir {fs : FS} {d : VPath} {a : String}
    (h : FS.lookup fs (d ++ [a]) = none) : a ∉ FS.listdir fs d := by
  intro hmem
  obtain ⟨e, he, hk⟩ := listdir_mem_key hmem
  exact lookup_eq_none_iff.mp h e he hk

theorem listdir_nodup {fs : FS} (d : VPath)
    (h : List.Nodup (List.map Prod.fst fs)) : List.Nodup (FS.listdir fs d) := by
  induction fs with
  | nil => simp [FS.listdir]
  | cons e rest ih =>
    rw [List.map_cons, List.nodup_cons] at h
    simp only [FS.listdir]
    by_cases hd : List.dropLast e.1 = d ∧ e.1 ≠ []
    · rw [if_pos hd]
      refine List.nodup_cons.mpr ⟨?_, ih h.2⟩
      intro hmem
      obtain ⟨e', he', hk⟩ := listdir_mem_key hmem
      have hkey : e.1 = e'.1 := by
        rw [hk, ← hd.1]
        exact (dropLast_concat_basename hd.2).symm
      apply h.1
      rw [hkey]
      exact List.mem_map_of_mem Prod.fst he'
    · rw [if_neg hd]; exact ih h.2

/-! ### Lemmas about makedirs -/

/-- Every prefix of d (including d itself) is present as a directory. -/
def AllDirs (fs : FS) (d : VPath) : Prop :=
  ∀ i < d.length, isDirN (FS.lookup fs (List.take (i + 1) d)) = true

/-- No prefix of d (including d itself) is occupied by a regular file. -/
def DirsClear (fs : FS) (d : VPath) : Prop :=
  ∀ i < d.length, isFileN (FS.lookup fs (List.take (i + 1) d)) = false

instance (fs : FS) (d : VPath) : Decidable (AllDirs fs d) :=
  inferInstanceAs (Decidable (∀ i < d.length, _ = true))

instance (fs : FS) (d : VPath) : Decidable (DirsClear fs d) :=
  inferInstanceAs (Decidable (∀ i < d.length, _ = false))

theorem dirsClear_of_allDirs {fs : FS} {d : VPath} (h : AllDirs fs d) :
    DirsClear fs d := by
  intro i hi
  have := h i hi
  rcases hl : FS.lookup fs (List.take (i + 1) d) with _ | n
  · simp [isFileN]
  · cases n with
    | file c m => rw [hl] at this; simp [isDirN] at this
    | dir m => simp [isFileN]

theorem makedirsUpto_ok {fs : FS} {d : VPath} :
    ∀ {n : Nat} {fs' : FS}, n ≤ d.length → FS.makedirsUpto fs d n = .ok fs' →
    (∀ i < n, isDirN (FS.lookup fs' (List.take (i + 1) d)) = true)
    ∧ (∀ q m, FS.lookup fs q = some m → FS.lookup fs' q = some m)
    ∧ (∀ q : VPath, d.length < q.length → FS.lookup fs' q = FS.lookup fs q) := by
  intro n
  induction n with
  | zero =>
    intro fs' _ h
    rw [FS.makedirsUpto] at h
    cases h
    exact ⟨by omega, fun q m hm => hm, fun q _ => rfl⟩
  | succ n ih =>
    intro fs' hn h
    rw [FS.makedirsUpto] at h
    rcases hrec : FS.makedirsUpto fs d n with e | acc
    · simp only [hrec] at h
      exact Except.noConfusion h
    · simp only [hrec] at h
      obtain ⟨ih1, ih2, ih3⟩ := ih (by omega) hrec
      rcases hl : FS.lookup acc (List.take (n + 1) d) with _ | nd
      · simp only [hl] at h
        cases h
        have hlen : (List.take (n + 1) d).length = n + 1 := by
          rw [List.length_take]; omega
        refine ⟨?_, ?_, ?_⟩
        · intro i hi
          by_cases hin : i = n
          · subst hin
            simp [FS.lookup, isDirN]
          · have hi' : i < n := by omega
            have hne : List.take (n + 1) d ≠ List.take (i + 1) d := by
              intro he
              have := congrArg List.length he
              rw [hlen, List.length_take] at this
              omega
            rw [FS.lookup, if_neg hne]
            exact ih1 i hi'
        · intro q m hm
          have hq := ih2 q m hm
          have hne : List.take (n + 1) d ≠ q := by
            intro he; rw [he] at hl; rw [hl] at hq; cases hq
          rw [FS.lookup, if_neg hne]
          exact hq
        · intro q hq
          have hne : List.take (n + 1) d ≠ q := by
            intro he
            have := congrArg List.length he
            rw [hlen] at this
            omega
          rw [FS.lookup, if_neg hne]
          exact ih3 q hq
      · cases nd with
        | file c m =>
          simp only [hl] at h
          exact Except.noConfusion h
        | dir m =>
          simp only [hl] at h
          cases h
          refine ⟨?_, ih2, ih3⟩
          intro i hi
          by_cases hin : i = n
          · subst hin; rw [hl]; simp [isDirN]
          · exact ih1 i (by omega)

theorem makedirs_ok_props {fs fs' : FS} {d : VPath}
    (h : FS.makedirsE fs d = .ok fs') :
    AllDirs fs' d
    ∧ (∀ q m, FS.lookup fs q = some m → FS.lookup fs' q = some m)
    ∧ (∀ q : VPath, d.length < q.length → FS.lookup fs' q = FS.lookup fs q) :=
  makedirsUpto_ok (Nat.le_refl _) h

theorem makedirs_exists_of_clear {fs : FS} {d : VPath} (h : DirsClear fs d) :
    ∃ fs', FS.makedirsE fs d = .ok fs' := by
  suffices hgen : ∀ n ≤ d.length, ∃ fs', FS.makedirsUpto fs d n = .ok fs'
      ∧ (∀ q, isFileN (FS.lookup fs' q) = true → isFileN (FS.lookup fs q) = true) by
    obtain ⟨fs', h1, _⟩ := hgen d.length (Nat.le_refl _)
    exact ⟨fs', h1⟩
  intro n
  induction n with
  | zero => exact fun _ => ⟨fs, rfl, fun q hq => hq⟩
  | succ n ih =>
    intro hn
    obtain ⟨acc, hacc, hinv⟩ := ih (by omega)
    rcases hl : FS.lookup acc (List.take (n + 1) d) with _ | nd
    · refine ⟨(List.take (n + 1) d, Node.dir 0) :: acc, ?_, ?_⟩
      · simp only [FS.makedirsUpto, hacc, hl]
      · intro q hq
        rw [FS.lookup] at hq
        by_cases he : List.take (n + 1) d = q
        · rw [if_pos he] at hq; simp [isFileN] at hq
        · rw [if_neg he] at hq; exact hinv q hq
    · cases nd with
      | file c m =>
        exfalso
        have hfile : isFileN (FS.lookup acc (List.take (n + 1) d)) = true := by
          rw [hl]; simp [isFileN]
        have := hinv _ hfile
        rw [h n (by omega)] at this
        cases this
      | dir m =>
        refine ⟨acc, ?_, hinv⟩
        simp only [FS.makedirsUpto, hacc, hl]

theorem makedirs_noop_of_all {fs : FS} {d : VPath} (h : AllDirs fs d) :
    FS.makedirsE fs d = .ok fs := by
  suffices hgen : ∀ n ≤ d.length, FS.makedirsUpto fs d n = .ok fs from
    hgen d.length (Nat.le_refl _)
  intro n
  induction n with
  | zero => exact fun _ => rfl
  | succ n ih =>
    intro hn
    have hthis := h n (by omega)
    rcases hl : FS.lookup fs (List.take (n + 1) d) with _ | nd
    · rw [hl] at hthis; simp [isDirN] at hthis
    · cases nd with
      | file c m => rw [hl] at hthis; simp [isDirN] at hthis
      | dir m => simp only [FS.makedirsUpto, ih (by omega), hl]

theorem allDirs_insert {fs : FS} {d q : VPath} (n : Node)
    (h : AllDirs fs d) (hq : d.length < q.length) : AllDirs (FS.insert fs q n) d := by
  intro i hi
  have hne : List.take (i + 1) d ≠ q := by
    intro he
    have := congrArg List.length he
    rw [List.length_take] at this
    omega
  rw [lookup_insert_ne n hne]
  exact h i hi

theorem dirsClear_insert {fs : FS} {d q : VPath} (n : Node)
    (h : DirsClear fs d) (hq : d.length < q.length) : DirsClear (FS.insert fs q n) d := by
  intro i hi
  have hne : List.take (i + 1) d ≠ q := by
    intro he
    have := congrArg List.length he
    rw [List.length_take] at this
    omega
  rw [lookup_insert_ne n hne]
  exact h i hi

/-! ### Lemmas about path prefixes, rename and touch -/

theorem vpre_iff {x y : VPath} : vpre x y = true ↔ ∃ t, y = x ++ t := by
  induction x generalizing y with
  | nil => simp [vpre]
  | cons a as ih =>
    cases y with
    | nil => simp [vpre]
    | cons b bs =>
      simp only [vpre, Bool.and_eq_true, decide_eq_true_eq, ih]
      constructor
      · rintro ⟨hab, t, ht⟩
        exact ⟨t, by rw [List.cons_append, ht, hab]⟩
      · rintro ⟨t, ht⟩
        rw [List.cons_append] at ht
        injection ht with h1 h2
        exact ⟨h1.symm, t, h2⟩

theorem vpre_refl (x : VPath) : vpre x x = true := vpre_iff.mpr ⟨[], by simp⟩

theorem vpre_append (x t : VPath) : vpre x (x ++ t) = true := vpre_iff.mpr ⟨t, rfl⟩

theorem vpre_length_le {x y : VPath} (h : vpre x y = true) : x.length ≤ y.length := by
  obtain ⟨t, ht⟩ := vpre_iff.mp h
  subst ht
  simp

theorem vpre_false_of_lt {x y : VPath} (h : y.length < x.length) : vpre x y = false := by
  rcases hv : vpre x y
  · rfl
  · exact absurd (vpre_length_le hv) (by omega)

theorem vpre_concat_ne {d : VPath} {a b : String} (hab : a ≠ b) :
    vpre (d ++ [a]) (d ++ [b]) = false := by
  rcases hv : vpre (d ++ [a]) (d ++ [b])
  · rfl
  · exfalso
    obtain ⟨t, ht⟩ := vpre_iff.mp hv
    have hlen := congrArg List.length ht
    simp only [List.length_append, List.length_cons, List.length_nil] at hlen
    have ht0 : t = [] := List.eq_nil_of_length_eq_zero (by omega)
    subst ht0
    rw [List.append_nil, List.append_cancel_left_eq] at ht
    injection ht with hb
    exact hab hb.symm

theorem lookup_renameFS_nw {old nw : VPath} (fs : FS) (h : vpre nw old = false) :
    FS.lookup (FS.renameFS fs old nw) nw = FS.lookup fs old := by
  have hno : old ≠ nw := by
    intro he; rw [← he, vpre_refl] at h; cases h
  induction fs with
  | nil => rfl
  | cons e rest ih =>
    simp only [FS.renameFS]
    by_cases hv : vpre nw e.1 = true
    · rw [if_pos hv]
      have hne : e.1 ≠ old := by
        intro he; rw [he, h] at hv; cases hv
      rw [ih]
      simp only [FS.lookup, if_neg hne]
    · rw [if_neg hv]
      by_cases ho : vpre old e.1 = true
      · obtain ⟨t, ht⟩ := vpre_iff.mp ho
        cases t with
        | nil =>
          rw [List.append_nil] at ht
          have hk : replacePref old nw e.1 = nw := by
            rw [replacePref, if_pos ho, ht, List.drop_length, List.append_nil]
          simp only [FS.lookup, hk, if_pos ht]
          simp
        | cons x xs =>
          have hk : replacePref old nw e.1 = nw ++ (x :: xs) := by
            rw [replacePref, if_pos ho, ht, List.drop_left]
          have hk1 : replacePref old nw e.1 ≠ nw := by
            rw [hk]
            intro he
            have := congrArg List.length he
            simp at this
          have hk2 : e.1 ≠ old := by
            rw [ht]
            intro he
            have := congrArg List.length he
            simp at this
          simp only [FS.lookup, if_neg hk1, if_neg hk2]
          exact ih
      · have hk1 : replacePref old nw e.1 ≠ nw := by
          rw [replacePref, if_neg ho]
          intro he
          rw [he, vpre_refl] at hv
          exact hv rfl
        have hk2 : e.1 ≠ old := by
          intro he
          rw [he, vpre_refl] at ho
          exact ho rfl
        simp only [FS.lookup, if_neg hk1, if_neg hk2]
        exact ih

theorem lookup_renameFS_gone {old nw : VPath} (fs : FS) (h : vpre nw old = false) :
    FS.lookup (FS.renameFS fs old nw) old = none := by
  induction fs with
  | nil => rfl
  | cons e rest ih =>
    simp only [FS.renameFS]
    by_cases hv : vpre nw e.1 = true
    · rw [if_pos hv]
      exact ih
    · rw [if_neg hv]
      by_cases ho : vpre old e.1 = true
      · obtain ⟨t, ht⟩ := vpre_iff.mp ho
        cases t with
        | nil =>
          rw [List.append_nil] at ht
          have hk : replacePref old nw e.1 = nw := by
            rw [replacePref, if_pos ho, ht, List.drop_length, List.append_nil]
          have hk1 : replacePref old nw e.1 ≠ old := by
            rw [hk]
            intro he
            rw [← he, vpre_refl] at h
            cases h
          simp only [FS.lookup, if_neg hk1]
          exact ih
        | cons x xs =>
          have hk : replacePref old nw e.1 = nw ++ (x :: xs) := by
            rw [replacePref, if_pos ho, ht, List.drop_left]
          have hk1 : replacePref old nw e.1 ≠ old := by
            rw [hk]
            intro he
            rw [← he] at h
            rw [vpre_append] at h
            cases h
          simp only [FS.lookup, if_neg hk1]
          exact ih
      · have hk1 : replacePref old nw e.1 ≠ old := by
          rw [replacePref, if_neg ho]
          intro he
          rw [he, vpre_refl] at ho
          exact ho rfl
        simp only [FS.lookup, if_neg hk1]
        exact ih

theorem lookup_renameFS_other {old nw q : VPath} (fs : FS)
    (h1 : vpre old q = false) (h2 : vpre nw q = false) :
    FS.lookup (FS.renameFS fs old nw) q = FS.lookup fs q := by
  induction fs with
  | nil => rfl
  | cons e rest ih =>
    simp only [FS.renameFS]
    by_cases hv : vpre nw e.1 = true
    · rw [if_pos hv]
      have hne : e.1 ≠ q := by
        intro he; rw [he, h2] at hv; cases hv
      rw [ih]
      simp only [FS.lookup, if_neg hne]
    · rw [if_neg hv]
      by_cases ho : vpre old e.1 = true
      · obtain ⟨t, ht⟩ := vpre_iff.mp ho
        have hk : replacePref old nw e.1 = nw ++ t := by
          rw [replacePref, if_pos ho, ht, List.drop_left]
        have hk1 : replacePref old nw e.1 ≠ q := by
          rw [hk]
          intro he
          rw [← he, vpre_append] at h2
          cases h2
        have hk2 : e.1 ≠ q := by
          rw [ht]
          intro he
          rw [← he, vpre_append] at h1
          cases h1
        simp only [FS.lookup, if_neg hk1, if_neg hk2]
        exact ih
      · have hk : replacePref old nw e.1 = e.1 := by
          rw [replacePref, if_neg ho]
        rw [hk]
        simp only [FS.lookup]
        rw [ih]

theorem lookup_touch_self (fs : FS) (q : VPath) (t : Nat) :
    FS.lookup (FS.touch fs q t) q
      = Option.map (fun n => Node.withMtime n t) (FS.lookup fs q) := by
  induction fs with
  | nil => rfl
  | cons e rest ih =>
    simp only [FS.touch]
    by_cases he : e.1 = q
    · rw [if_pos he]
      simp only [FS.lookup, if_pos he, Option.map_some']
    · rw [if_neg he]
      simp only [FS.lookup, if_neg he]
      exact ih

theorem lookup_touch_ne {q r : VPath} (fs : FS) (t : Nat) (h : r ≠ q) :
    FS.lookup (FS.touch fs q t) r = FS.lookup fs r := by
  induction fs with
  | nil => rfl
  | cons e rest ih =>
    simp only [FS.touch]
    by_cases he : e.1 = q
    · rw [if_pos he]
      have hne : e.1 ≠ r := by rw [he]; exact fun hr => h hr.symm
      simp only [FS.lookup, if_neg hne]
      exact ih
    · rw [if_neg he]
      simp only [FS.lookup]
      rw [ih]

/-! ### Freshness predicates and characterizations of fetch_file -/

/-- The freshness entry of q equals the current source mtime of the regular
source file q. -/
def FreshMark (s : SysState) (q : VPath) : Prop :=
  ∃ c m, FS.lookup s.source q = some (.file c m) ∧ s.file_mtimes q = some m

/-- FreshMark together with a faithful cache copy of q. -/
def FreshFull (s : SysState) (q : VPath) : Prop :=
  ∃ c m, FS.lookup s.source q = some (.file c m) ∧ s.file_mtimes q = some m
    ∧ FS.lookup s.cache q = some (.file c m)

theorem fetch_file_err {s : SysState} {p : VPath}
    (h : FS.lookup s.source p = none) :
    fetch_file s p = ({s with fetches := s.fetches ++ [p]}, .error ENOENT) := by
  simp [fetch_file, h]

theorem fetch_file_fresh {s : SysState} {p : VPath} {n : Node}
    (h1 : FS.lookup s.source p = some n)
    (h2 : s.file_mtimes p = some (Node.mtime n)) :
    fetch_file s p = ({s with fetches := s.fetches ++ [p]}, .ok ()) := by
  simp [fetch_file, h1, h2]

theorem fetch_file_stale {s : SysState} {p : VPath} {c : List Nat} {mt : Nat}
    (h1 : FS.lookup s.source p = some (.file c mt))
    (h2 : ¬ s.file_mtimes p = some mt)
    (hA : AllDirs s.cache (List.dropLast p))
    (hc : isDirN (FS.lookup s.cache p) = false) :
    fetch_file s p =
      ({s with cache := FS.insert s.cache p (.file c mt),
               file_mtimes := mset s.file_mtimes p mt,
               fetches := s.fetches ++ [p],
               copies := s.copies ++ [p]}, .ok ()) := by
  have hmk := makedirs_noop_of_all hA
  rcases hl : FS.lookup s.cache p with _ | n
  · simp [fetch_file, h1, h2, hmk, hl, Node.mtime]
  · cases n with
    | dir m => rw [hl] at hc; simp [isDirN] at hc
    | file cc mm => simp [fetch_file, h1, h2, hmk, hl, Node.mtime]

theorem fetch_file_stale_dir {s : SysState} {p : VPath} {c : List Nat} {mt x : Nat}
    (h1 : FS.lookup s.source p = some (.file c mt))
    (h2 : ¬ s.file_mtimes p = some mt)
    (hA : AllDirs s.cache (List.dropLast p))
    (hc : FS.lookup s.cache p = some (.dir x)) :
    fetch_file s p =
      ({s with cache := FS.insert s.cache (p ++ [basename p]) (.file c mt),
               file_mtimes := mset s.file_mtimes p mt,
               fetches := s.fetches ++ [p],
               copies := s.copies ++ [p]}, .ok ()) := by
  have hmk := makedirs_noop_of_all hA
  simp [fetch_file, h1, h2, hmk, hc, Node.mtime]

theorem fetch_file_mkdir_err {s : SysState} {p : VPath} {node : Node} {e : Nat}
    (h1 : FS.lookup s.source p = some node)
    (h2 : ¬ s.file_mtimes p = some (Node.mtime node))
    (h3 : FS.makedirsE s.cache (List.dropLast p) = .error e) :
    fetch_file s p = ({s with fetches := s.fetches ++ [p]}, .error e) := by
  simp [fetch_file, h1, h2, h3]

theorem fetch_file_srcdir {s : SysState} {p : VPath} {mm : Nat} {c1 : FS}
    (h1 : FS.lookup s.source p = some (.dir mm))
    (h2 : ¬ s.file_mtimes p = some mm)
    (h3 : FS.makedirsE s.cache (List.dropLast p) = .ok c1) :
    fetch_file s p =
      ({s with cache := c1, fetches := s.fetches ++ [p]}, .error EISDIR) := by
  simp [fetch_file, h1, h2, h3, Node.mtime]

/-- Complete case analysis of a fetch_file call. -/
theorem fetch_file_cases (s : SysState) (p : VPath) :
    (FS.lookup s.source p = none
      ∧ fetch_file s p = ({s with fetches := s.fetches ++ [p]}, .error ENOENT))
    ∨ (∃ node, FS.lookup s.source p = some node
        ∧ s.file_mtimes p = some (Node.mtime node)
        ∧ fetch_file s p = ({s with fetches := s.fetches ++ [p]}, .ok ()))
    ∨ (∃ node e, FS.lookup s.source p = some node
        ∧ ¬ s.file_mtimes p = some (Node.mtime node)
        ∧ FS.makedirsE s.cache (List.dropLast p) = .error e
        ∧ fetch_file s p = ({s with fetches := s.fetches ++ [p]}, .error e))
    ∨ (∃ mm c1, FS.lookup s.source p = some (.dir mm)
        ∧ ¬ s.file_mtimes p = some mm
        ∧ FS.makedirsE s.cache (List.dropLast p) = .ok c1
        ∧ fetch_file s p = ({s with cache := c1, fetches := s.fetches ++ [p]}, .error EISDIR))
    ∨ (∃ c mt c1, FS.lookup s.source p = some (.file c mt)
        ∧ ¬ s.file_mtimes p = some mt
        ∧ FS.makedirsE s.cache (List.dropLast p) = .ok c1
        ∧ isDirN (FS.lookup c1 p) = false
        ∧ fetch_file s p = ({s with cache := FS.insert c1 p (.file c mt),
                                    file_mtimes := mset s.file_mtimes p mt,
                                    fetches := s.fetches ++ [p],
                                    copies := s.copies ++ [p]}, .ok ()))
    ∨ (∃ c mt c1 x, FS.lookup s.source p = some (.file c mt)
        ∧ ¬ s.file_mtimes p = some mt
        ∧ FS.makedirsE s.cache (List.dropLast p) = .ok c1
        ∧ FS.lookup c1 p = some (.dir x)
        ∧ fetch_file s p = ({s with cache := FS.insert c1 (p ++ [basename p]) (.file c mt),
                                    file_mtimes := mset s.file_mtimes p mt,
                                    fetches := s.fetches ++ [p],
                                    copies := s.copies ++ [p]}, .ok ())) := by
  rcases h1 : FS.lookup s.source p with _ | node
  · exact Or.inl ⟨rfl, fetch_file_err h1⟩
  · by_cases h2 : s.file_mtimes p = some (Node.mtime node)
    · exact Or.inr (Or.inl ⟨node, rfl, h2, fetch_file_fresh h1 h2⟩)
    · rcases h3 : FS.makedirsE s.cache (List.dropLast p) with e | c1
      · exact Or.inr (Or.inr (Or.inl ⟨node, e, rfl, h2, rfl, fetch_file_mkdir_err h1 h2 h3⟩))
      · cases node with
        | dir mm =>
          refine Or.inr (Or.inr (Or.inr (Or.inl ⟨mm, c1, rfl, ?_, rfl, ?_⟩)))
          · simpa [Node.mtime] using h2
          · exact fetch_file_srcdir h1 (by simpa [Node.mtime] using h2) h3
        | file c mt =>
          have h2' : ¬ s.file_mtimes p = some mt := by simpa [Node.mtime] using h2
          rcases h4 : FS.lookup c1 p with _ | n
          · refine Or.inr (Or.inr (Or.inr (Or.inr (Or.inl
              ⟨c, mt, c1, rfl, h2', rfl, by rw [h4]; rfl, ?_⟩))))
            simp [fetch_file, h1, h2', h3, h4, Node.mtime]
          · cases n with
            | file c2 m2 =>
              refine Or.inr (Or.inr (Or.inr (Or.inr (Or.inl
                ⟨c, mt, c1, rfl, h2', rfl, by rw [h4]; rfl, ?_⟩))))
              simp [fetch_file, h1, h2', h3, h4, Node.mtime]
            | dir x =>
              refine Or.inr (Or.inr (Or.inr (Or.inr (Or.inr
                ⟨c, mt, c1, x, rfl, h2', rfl, h4, ?_⟩))))
              simp [fetch_file, h1, h2', h3, h4, Node.mtime]

theorem allDirs_nil (fs : FS) : AllDirs fs [] := by
  intro i hi
  simp at hi

theorem sib_len {q d : VPath} (h : List.dropLast q = d) : q.length ≤ d.length + 1 := by
  have := congrArg List.length h
  rw [List.length_dropLast] at this
  omega

theorem fetch_file_frame (s : SysState) (p : VPath) :
    (fetch_file s p).1.source = s.source
    ∧ (fetch_file s p).1.dir_mtimes = s.dir_mtimes
    ∧ (fetch_file s p).1.now = s.now
    ∧ (fetch_file s p).1.fetches = s.fetches ++ [p] := by
  rcases fetch_file_cases s p with ⟨_, he⟩ | ⟨node, _, _, he⟩ | ⟨node, e, _, _, _, he⟩
    | ⟨mm, c1, _, _, _, he⟩ | ⟨c, mt, c1, _, _, _, _, he⟩ | ⟨c, mt, c1, x, _, _, _, _, he⟩ <;>
    rw [he] <;> exact ⟨rfl, rfl, rfl, rfl⟩

theorem fetch_file_copies (s : SysState) (p : VPath) :
    (fetch_file s p).1.copies = s.copies
    ∨ (fetch_file s p).1.copies = s.copies ++ [p] := by
  rcases fetch_file_cases s p with ⟨_, he⟩ | ⟨node, _, _, he⟩ | ⟨node, e, _, _, _, he⟩
    | ⟨mm, c1, _, _, _, he⟩ | ⟨c, mt, c1, _, _, _, _, he⟩ | ⟨c, mt, c1, x, _, _, _, _, he⟩ <;>
    rw [he] <;> first | exact Or.inl rfl | exact Or.inr rfl

theorem fetch_mtimes_pres {s : SysState} {p q : VPath} (hq : q ≠ p) :
    (fetch_file s p).1.file_mtimes q = s.file_mtimes q := by
  rcases fetch_file_cases s p with ⟨_, he⟩ | ⟨node, _, _, he⟩ | ⟨node, e, _, _, _, he⟩
    | ⟨mm, c1, _, _, _, he⟩ | ⟨c, mt, c1, _, _, _, _, he⟩ | ⟨c, mt, c1, x, _, _, _, _, he⟩ <;>
    rw [he] <;> first | rfl | simp [mset, hq]

theorem fetch_pres_mark {s : SysState} {p q : VPath} (h : FreshMark s q) :
    FreshMark (fetch_file s p).1 q := by
  obtain ⟨c, m, hs, hf⟩ := h
  rcases fetch_file_cases s p with ⟨_, he⟩ | ⟨node, _, _, he⟩ | ⟨node, e, _, _, _, he⟩
    | ⟨mm, c1, _, _, _, he⟩ | ⟨cf, mt, c1, hsp, _, _, _, he⟩
    | ⟨cf, mt, c1, x, hsp, _, _, _, he⟩ <;> rw [he]
  · exact ⟨c, m, hs, hf⟩
  · exact ⟨c, m, hs, hf⟩
  · exact ⟨c, m, hs, hf⟩
  · exact ⟨c, m, hs, hf⟩
  · by_cases hq : q = p
    · subst hq
      exact ⟨cf, mt, hsp, by simp [mset]⟩
    · exact ⟨c, m, hs, by simp [mset, hq]; exact hf⟩
  · by_cases hq : q = p
    · subst hq
      exact ⟨cf, mt, hsp, by simp [mset]⟩
    · exact ⟨c, m, hs, by simp [mset, hq]; exact hf⟩

theorem fetch_pres_full {s : SysState} {p q : VPath} (hlen : q.length ≤ p.length)
    (h : FreshFull s q) : FreshFull (fetch_file s p).1 q := by
  obtain ⟨c, m, hs, hf, hc⟩ := h
  rcases fetch_file_cases s p with ⟨_, he⟩ | ⟨node, _, _, he⟩ | ⟨node, e, _, _, _, he⟩
    | ⟨mm, c1, _, _, hmk, he⟩ | ⟨cf, mt, c1, hsp, hstale, hmk, _, he⟩
    | ⟨cf, mt, c1, x, hsp, hstale, hmk, _, he⟩ <;> rw [he]
  · exact ⟨c, m, hs, hf, hc⟩
  · exact ⟨c, m, hs, hf, hc⟩
  · exact ⟨c, m, hs, hf, hc⟩
  · obtain ⟨_, hpres, _⟩ := makedirs_ok_props hmk
    exact ⟨c, m, hs, hf, hpres q _ hc⟩
  · by_cases hq : q = p
    · exfalso
      subst hq
      rw [hsp] at hs
      injection hs with h5
      injection h5 with h6 h7
      exact hstale (by rw [h7]; exact hf)
    · obtain ⟨_, hpres, _⟩ := makedirs_ok_props hmk
      refine ⟨c, m, hs, by simp [mset, hq]; exact hf, ?_⟩
      rw [lookup_insert_ne _ hq]
      exact hpres q _ hc
  · by_cases hq : q = p
    · exfalso
      subst hq
      rw [hsp] at hs
      injection hs with h5
      injection h5 with h6 h7
      exact hstale (by rw [h7]; exact hf)
    · have hne : q ≠ p ++ [basename p] := by
        intro he2
        have hlen2 := congrArg List.length he2
        simp only [List.length_append, List.length_cons, List.length_nil] at hlen2
        omega
      obtain ⟨_, hpres, _⟩ := makedirs_ok_props hmk
      refine ⟨c, m, hs, by simp [mset, hq]; exact hf, ?_⟩
      rw [lookup_insert_ne _ hne]
      exact hpres q _ hc

theorem fetch_cache_pres {s : SysState} {p q : VPath}
    (hA : AllDirs s.cache (List.dropLast p)) (hq1 : q ≠ p) (hq2 : q.length ≤ p.length) :
    FS.lookup (fetch_file s p).1.cache q = FS.lookup s.cache q := by
  have hmk0 := makedirs_noop_of_all hA
  rcases fetch_file_cases s p with ⟨_, he⟩ | ⟨node, _, _, he⟩ | ⟨node, e, _, _, _, he⟩
    | ⟨mm, c1, _, _, hmk, he⟩ | ⟨cf, mt, c1, _, _, hmk, _, he⟩
    | ⟨cf, mt, c1, x, _, _, hmk, _, he⟩ <;> rw [he]
  · rw [hmk0] at hmk
    injection hmk with h5
    rw [← h5]
  · rw [hmk0] at hmk
    injection hmk with h5
    rw [← h5]
    exact lookup_insert_ne _ hq1
  · rw [hmk0] at hmk
    injection hmk with h5
    rw [← h5]
    have hne : q ≠ p ++ [basename p] := by
      intro he2
      have hlen2 := congrArg List.length he2
      simp only [List.length_append, List.length_cons, List.length_nil] at hlen2
      omega
    exact lookup_insert_ne _ hne

theorem fetch_pres_alldirs {s : SysState} {p d : VPath}
    (hA : AllDirs s.cache d) (hd : List.dropLast p = d) :
    AllDirs (fetch_file s p).1.cache d := by
  have hmk0 : FS.makedirsE s.cache (List.dropLast p) = .ok s.cache := by
    rw [hd]; exact makedirs_noop_of_all hA
  rcases fetch_file_cases s p with ⟨_, he⟩ | ⟨node, _, _, he⟩ | ⟨node, e, _, _, _, he⟩
    | ⟨mm, c1, _, _, hmk, he⟩ | ⟨cf, mt, c1, _, _, hmk, _, he⟩
    | ⟨cf, mt, c1, x, _, _, hmk, _, he⟩ <;> rw [he]
  · exact hA
  · exact hA
  · exact hA
  · rw [hmk0] at hmk
    injection hmk with h5
    rw [← h5]
    exact hA
  · rw [hmk0] at hmk
    injection hmk with h5
    rw [← h5]
    by_cases hp : p = []
    · subst hp
      have hd0 : d = [] := by rw [← hd]; rfl
      rw [hd0]
      exact allDirs_nil _
    · refine allDirs_insert _ hA ?_
      rw [← hd, List.length_dropLast]
      have := List.length_pos.mpr hp
      omega
  · rw [hmk0] at hmk
    injection hmk with h5
    rw [← h5]
    refine allDirs_insert _ hA ?_
    rw [← hd]
    have h1 : List.length (List.dropLast p) ≤ p.length := by
      rw [List.length_dropLast]; omega
    simp only [List.length_append, List.length_cons, List.length_nil]
    omega

theorem fetch_establish {s : SysState} {p : VPath} {c : List Nat} {m : Nat}
    (h1 : FS.lookup s.source p = some (.file c m))
    (hA : AllDirs s.cache (List.dropLast p)) :
    (fetch_file s p).2 = .ok ()
    ∧ FreshMark (fetch_file s p).1 p
    ∧ (FreshFull (fetch_file s p).1 p ∨ s.file_mtimes p = some m
       ∨ isDirN (FS.lookup s.cache p) = true) := by
  by_cases h2 : s.file_mtimes p = some m
  · rw [fetch_file_fresh h1 (by simpa [Node.mtime] using h2)]
    exact ⟨rfl, ⟨c, m, h1, h2⟩, Or.inr (Or.inl h2)⟩
  · rcases hcp : FS.lookup s.cache p with _ | n
    · rw [fetch_file_stale h1 h2 hA (by rw [hcp]; rfl)]
      refine ⟨rfl, ⟨c, m, h1, by simp [mset]⟩, Or.inl ⟨c, m, h1, by simp [mset], ?_⟩⟩
      exact lookup_insert _ p _
    · cases n with
      | file cc mm =>
        rw [fetch_file_stale h1 h2 hA (by rw [hcp]; rfl)]
        refine ⟨rfl, ⟨c, m, h1, by simp [mset]⟩, Or.inl ⟨c, m, h1, by simp [mset], ?_⟩⟩
        exact lookup_insert _ p _
      | dir x =>
        rw [fetch_file_stale_dir h1 h2 hA hcp]
        exact ⟨rfl, ⟨c, m, h1, by simp [mset]⟩, Or.inr (Or.inr rfl)⟩

/-! ### Lemmas about the fetch loop of _refresh_dir -/

theorem fetchEntries_frame (d : VPath) :
    ∀ (es : List String) (s : SysState),
    (fetchEntries d es s).1.source = s.source
    ∧ (fetchEntries d es s).1.dir_mtimes = s.dir_mtimes
    ∧ (fetchEntries d es s).1.now = s.now := by
  intro es
  induction es with
  | nil => exact fun s => ⟨rfl, rfl, rfl⟩
  | cons e rest ih =>
    intro s
    simp only [fetchEntries]
    by_cases hf : FS.isFile s.source (d ++ [e]) = true
    · rw [if_pos hf]
      obtain ⟨f1, f2, f3, _⟩ := fetch_file_frame s (d ++ [e])
      rcases hres : fetch_file s (d ++ [e]) with ⟨s', r⟩
      rw [hres] at f1 f2 f3
      cases r with
      | ok u =>
        obtain ⟨g1, g2, g3⟩ := ih s'
        simp only [hres]
        exact ⟨g1.trans f1, g2.trans f2, g3.trans f3⟩
      | error err =>
        simp only [hres]
        exact ⟨f1, f2, f3⟩
    · rw [if_neg hf]
      exact ih s

theorem fetchEntries_log (d : VPath) :
    ∀ (es : List String) (s : SysState),
    (∃ l, (fetchEntries d es s).1.fetches = s.fetches ++ l
        ∧ ∀ q ∈ l, ∃ e ∈ es, q = d ++ [e])
    ∧ (∃ l, (fetchEntries d es s).1.copies = s.copies ++ l
        ∧ ∀ q ∈ l, ∃ e ∈ es, q = d ++ [e]) := by
  intro es
  induction es with
  | nil =>
    intro s
    exact ⟨⟨[], by simp [fetchEntries], by simp⟩, ⟨[], by simp [fetchEntries], by simp⟩⟩
  | cons e rest ih =>
    intro s
    simp only [fetchEntries]
    by_cases hf : FS.isFile s.source (d ++ [e]) = true
    · rw [if_pos hf]
      obtain ⟨_, _, _, f4⟩ := fetch_file_frame s (d ++ [e])
      have f5 := fetch_file_copies s (d ++ [e])
      rcases hres : fetch_file s (d ++ [e]) with ⟨s', r⟩
      rw [hres] at f4 f5
      cases r with
      | ok u =>
        obtain ⟨⟨l1, hl1, hm1⟩, ⟨l2, hl2, hm2⟩⟩ := ih s'
        simp only [hres]
        constructor
        · refine ⟨[d ++ [e]] ++ l1, ?_, ?_⟩
          · rw [hl1, f4, List.append_assoc]
          · intro q hq
            rcases List.mem_append.mp hq with h1 | h2
            · rcases List.mem_singleton.mp h1 with h3
              exact ⟨e, List.mem_cons_self _ _, by rw [h3]⟩
            · obtain ⟨e', he', hk⟩ := hm1 q h2
              exact ⟨e', List.mem_cons_of_mem _ he', hk⟩
        · rcases f5 with f5 | f5
          · refine ⟨l2, by rw [hl2, f5], ?_⟩
            intro q hq
            obtain ⟨e', he', hk⟩ := hm2 q hq
            exact ⟨e', List.mem_cons_of_mem _ he', hk⟩
          · refine ⟨[d ++ [e]] ++ l2, ?_, ?_⟩
            · rw [hl2, f5, List.append_assoc]
            · intro q hq
              rcases List.mem_append.mp hq with h1 | h2
              · rcases List.mem_singleton.mp h1 with h3
                exact ⟨e, List.mem_cons_self _ _, by rw [h3]⟩
              · obtain ⟨e', he', hk⟩ := hm2 q h2
                exact ⟨e', List.mem_cons_of_mem _ he', hk⟩
      | error err =>
        simp only [hres]
        constructor
        · refine ⟨[d ++ [e]], f4.trans ?_, ?_⟩
          · rfl
          · intro q hq
            rcases List.mem_singleton.mp hq with h3
            exact ⟨e, List.mem_cons_self _ _, by rw [h3]⟩
        · rcases f5 with f5 | f5
          · exact ⟨[], by rw [f5, List.append_nil], by simp⟩
          · refine ⟨[d ++ [e]], f5.trans ?_, ?_⟩
            · rfl
            · intro q hq
              rcases List.mem_singleton.mp hq with h3
              exact ⟨e, List.mem_cons_self _ _, by rw [h3]⟩
    · rw [if_neg hf]
      obtain ⟨⟨l1, hl1, hm1⟩, ⟨l2, hl2, hm2⟩⟩ := ih s
      constructor
      · refine ⟨l1, hl1, ?_⟩
        intro q hq
        obtain ⟨e', he', hk⟩ := hm1 q hq
        exact ⟨e', List.mem_cons_of_mem _ he', hk⟩
      · refine ⟨l2, hl2, ?_⟩
        intro q hq
        obtain ⟨e', he', hk⟩ := hm2 q hq
        exact ⟨e', List.mem_cons_of_mem _ he', hk⟩

/-- Main invariant of the fetch loop: it always succeeds, preserves
freshness, and establishes freshness for every regular-file entry of the
processed list. -/
theorem fetchEntries_main (d : VPath) :
    ∀ (es : List String) (s : SysState), AllDirs s.cache d →
    (fetchEntries d es s).2 = .ok ()
    ∧ AllDirs (fetchEntries d es s).1.cache d
    ∧ (∀ q, FreshMark s q → FreshMark (fetchEntries d es s).1 q)
    ∧ (∀ q, List.dropLast q = d → FreshFull s q → FreshFull (fetchEntries d es s).1 q)
    ∧ (∀ q, List.dropLast q = d → q ≠ [] → basename q ∉ es →
        FS.lookup (fetchEntries d es s).1.cache q = FS.lookup s.cache q)
    ∧ (∀ e ∈ es, ∀ c m, FS.lookup s.source (d ++ [e]) = some (.file c m) →
        FreshMark (fetchEntries d es s).1 (d ++ [e])
        ∧ (FreshFull (fetchEntries d es s).1 (d ++ [e])
           ∨ s.file_mtimes (d ++ [e]) = some m
           ∨ isDirN (FS.lookup s.cache (d ++ [e])) = true)) := by
  intro es
  induction es with
  | nil =>
    intro s hA
    refine ⟨rfl, hA, fun q h => h, fun q _ h => h, fun q _ _ _ => rfl, ?_⟩
    intro e he
    simp at he
  | cons e rest ih =>
    intro s hA
    simp only [fetchEntries]
    by_cases hf : FS.isFile s.source (d ++ [e]) = true
    case neg =>
      rw [if_neg hf]
      obtain ⟨i1, i2, i3, i4, i5, i6⟩ := ih s hA
      refine ⟨i1, i2, i3, i4, ?_, ?_⟩
      · intro q h1 h2 h3
        exact i5 q h1 h2 (fun hm => h3 (List.mem_cons_of_mem _ hm))
      · intro e' he' c m hsp
        by_cases hq : e' = e
        · exfalso
          subst hq
          have : FS.isFile s.source (d ++ [e']) = true := by
            simp [FS.isFile, hsp]
          exact hf this
        · have he2 : e' ∈ rest := by
            rcases List.mem_cons.mp he' with h | h
            · exact absurd h hq
            · exact h
          exact i6 e' he2 c m hsp
    case pos =>
      rw [if_pos hf]
      have hsrc : ∃ c mt, FS.lookup s.source (d ++ [e]) = some (.file c mt) := by
        rcases hL : FS.lookup s.source (d ++ [e]) with _ | n
        · simp [FS.isFile, hL] at hf
        · cases n with
          | file c mt => exact ⟨c, mt, rfl⟩
          | dir mm => simp [FS.isFile, hL] at hf
      obtain ⟨c, mt, hsp⟩ := hsrc
      have hfp_d : List.dropLast (d ++ [e]) = d := List.dropLast_concat
      have hfpA : AllDirs s.cache (List.dropLast (d ++ [e])) := by
        rw [hfp_d]; exact hA
      obtain ⟨hok, hmarkP, hdisj⟩ := fetch_establish hsp hfpA
      have hallP := fetch_pres_alldirs hA hfp_d
      obtain ⟨hf1, hf2, hf3, hf4⟩ := fetch_file_frame s (d ++ [e])
      rcases hres : fetch_file s (d ++ [e]) with ⟨s', r⟩
      rw [hres] at hok hmarkP hdisj hallP hf1 hf2 hf3 hf4
      cases r with
      | error err => simp at hok
      | ok u =>
        simp only [hres]
        obtain ⟨i1, i2, i3, i4, i5, i6⟩ := ih s' hallP
        refine ⟨i1, i2, ?_, ?_, ?_, ?_⟩
        · intro q hq
          refine i3 q ?_
          have hh := fetch_pres_mark (p := d ++ [e]) hq
          rw [hres] at hh
          exact hh
        · intro q hqd hq
          refine i4 q hqd ?_
          have hlen : q.length ≤ (d ++ [e]).length := by
            have := sib_len hqd
            simp only [List.length_append, List.length_cons, List.length_nil]
            omega
          have hh := fetch_pres_full hlen hq
          rw [hres] at hh
          exact hh
        · intro q hqd hqne hqmem
          have hqe : basename q ≠ e :=
            fun hx => hqmem (by rw [hx]; exact List.mem_cons_self _ _)
          have hqmem' : basename q ∉ rest := fun hm => hqmem (List.mem_cons_of_mem _ hm)
          have hqfp : q ≠ d ++ [e] := by
            intro hx
            exact hqe (by rw [hx, basename_concat])
          have hlen : q.length ≤ (d ++ [e]).length := by
            have := sib_len hqd
            simp only [List.length_append, List.length_cons, List.length_nil]
            omega
          have hpres := fetch_cache_pres hfpA hqfp hlen
          rw [hres] at hpres
          rw [i5 q hqd hqne hqmem']
          exact hpres
        · intro e' he' c' m' hsp'
          by_cases hq : e' = e
          · subst hq
            rw [hsp] at hsp'
            injection hsp' with h5
            injection h5 with h6 h7
            constructor
            · exact i3 _ hmarkP
            · rcases hdisj with h1 | h2 | h3
              · exact Or.inl (i4 _ List.dropLast_concat h1)
              · exact Or.inr (Or.inl (by rw [← h7]; exact h2))
              · exact Or.inr (Or.inr h3)
          · have he2 : e' ∈ rest := by
              rcases List.mem_cons.mp he' with h | h
              · exact absurd h hq
              · exact h
            have hqq : (d ++ [e']) ≠ (d ++ [e]) := by
              intro hx
              rw [List.append_cancel_left_eq] at hx
              injection hx with hx1
              exact hq hx1
            have hsp'' : FS.lookup s'.source (d ++ [e']) = some (.file c' m') := by
              rw [hf1]; exact hsp'
            obtain ⟨hm6, hd6⟩ := i6 e' he2 c' m' hsp''
            refine ⟨hm6, ?_⟩
            rcases hd6 with h61 | h62 | h63
            · exact Or.inl h61
            · have hh := fetch_mtimes_pres (s := s) (p := d ++ [e]) (q := d ++ [e']) hqq
              rw [hres] at hh
              rw [hh] at h62
              exact Or.inr (Or.inl h62)
            · have hlen : (d ++ [e']).length ≤ (d ++ [e]).length := by simp
              have hcp := fetch_cache_pres hfpA hqq hlen
              rw [hres] at hcp
              rw [hcp] at h63
              exact Or.inr (Or.inr h63)

/-! ### The read path -/

/-- When the parent-directory freshness entry matches the current source
directory mtime, read serves the cache without any refresh. -/
theorem read_dir_fresh {s : SysState} {p : VPath} {dm : Nat} (sz off : Nat)
    (hstat : FS.statM s.source (List.dropLast p) = .ok dm)
    (hdm : s.dir_mtimes (List.dropLast p) = some dm) :
    read s p sz off = readCache s p sz off := by
  have hnr : needs_refresh s p = false := by
    simp [needs_refresh, hstat, hdm]
  simp [read, hnr]

/-- A read on a path whose parent directory entry is stale and whose file
entry is stale refetches the file and serves the current source content. -/
theorem read_refetch {s : SysState} {p : VPath} {c : List Nat} {mt dm : Nat}
    (sz off : Nat)
    (hp : p ≠ [])
    (hsd : FS.lookup s.source (List.dropLast p) = some (.dir dm))
    (hsp : FS.lookup s.source p = some (.file c mt))
    (hdm : ¬ s.dir_mtimes (List.dropLast p) = some dm)
    (hfm : ¬ s.file_mtimes p = some mt)
    (hcp : isDirN (FS.lookup s.cache p) = false)
    (hdc : DirsClear s.cache (List.dropLast p)) :
    ∃ s', read s p sz off = (s', .ok (List.take sz (List.drop off c)))
      ∧ (∃ l, s'.copies = s.copies ++ p :: l)
      ∧ FreshFull s' p
      ∧ s'.dir_mtimes (List.dropLast p) = some dm := by
  have hstat : FS.statM s.source (List.dropLast p) = .ok dm := by
    simp [FS.statM, hsd, Node.mtime]
  have hnr : needs_refresh s p = true := by
    rw [needs_refresh, hstat]
    rcases hd : s.dir_mtimes (List.dropLast p) with _ | x
    · rfl
    · have hne : ¬ dm = x := fun he => hdm (by rw [hd, he])
      simp [hne]
  have hlenp : (List.dropLast p).length < p.length := by
    rw [List.length_dropLast]
    have := List.length_pos.mpr hp
    omega
  obtain ⟨c1, hmk⟩ := makedirs_exists_of_clear hdc
  obtain ⟨hc1A, hc1pres, hc1long⟩ := makedirs_ok_props hmk
  have hc1p : FS.lookup c1 p = FS.lookup s.cache p := hc1long p hlenp
  have hld : FS.listdirE s.source (List.dropLast p)
      = .ok (FS.listdir s.source (List.dropLast p)) := by
    simp [FS.listdirE, hsd]
  have hmem : basename p ∈ FS.listdir s.source (List.dropLast p) :=
    mem_listdir_of_lookup hsp hp
  have hfetch := fetch_file_stale (s := {s with cache := c1}) (p := p) hsp hfm hc1A
    (show isDirN (FS.lookup c1 p) = false by rw [hc1p]; exact hcp)
  rw [read, if_pos hnr, refresh_dir]
  simp only [hmk, hstat, hld, if_pos hmem, hfetch]
  rw [refreshFinish]
  have hFA : AllDirs (FS.insert c1 p (.file c mt)) (List.dropLast p) :=
    allDirs_insert _ hc1A hlenp
  obtain ⟨m1, m2, m3, m4, m5, m6⟩ := fetchEntries_main (List.dropLast p)
    (List.erase (FS.listdir s.source (List.dropLast p)) (basename p))
    ({s with cache := FS.insert c1 p (.file c mt),
              file_mtimes := mset s.file_mtimes p mt,
              fetches := s.fetches ++ [p],
              copies := s.copies ++ [p]}) hFA
  obtain ⟨fl1, ⟨l2, hl2, hml2⟩⟩ := fetchEntries_log (List.dropLast p)
    (List.erase (FS.listdir s.source (List.dropLast p)) (basename p))
    ({s with cache := FS.insert c1 p (.file c mt),
              file_mtimes := mset s.file_mtimes p mt,
              fetches := s.fetches ++ [p],
              copies := s.copies ++ [p]})
  obtain ⟨ff1, ff2, ff3⟩ := fetchEntries_frame (List.dropLast p)
    (List.erase (FS.listdir s.source (List.dropLast p)) (basename p))
    ({s with cache := FS.insert c1 p (.file c mt),
              file_mtimes := mset s.file_mtimes p mt,
              fetches := s.fetches ++ [p],
              copies := s.copies ++ [p]})
  have hfullF : FreshFull ({s with cache := FS.insert c1 p (.file c mt),
                                   file_mtimes := mset s.file_mtimes p mt,
                                   fetches := s.fetches ++ [p],
                                   copies := s.copies ++ [p]}) p :=
    ⟨c, mt, hsp, by simp [mset], lookup_insert _ p _⟩
  rcases hFE : fetchEntries (List.dropLast p)
    (List.erase (FS.listdir s.source (List.dropLast p)) (basename p))
    ({s with cache := FS.insert c1 p (.file c mt),
              file_mtimes := mset s.file_mtimes p mt,
              fetches := s.fetches ++ [p],
              copies := s.copies ++ [p]}) with ⟨s3, r3⟩
  rw [hFE] at m1 m4 hl2 ff1
  have hr3 : r3 = .ok () := by simpa using m1
  subst hr3
  simp only [hFE]
  have hfull3 : FreshFull s3 p := m4 p rfl hfullF
  have hc3 : FS.lookup s3.cache p = some (.file c mt) := by
    obtain ⟨c', m', hs3src, _, hs3c⟩ := hfull3
    rw [ff1] at hs3src
    rw [hsp] at hs3src
    injection hs3src with h5
    injection h5 with h6 h7
    rw [← h6, ← h7] at hs3c
    exact hs3c
  rw [readCache]
  simp only [hc3]
  refine ⟨_, rfl, ⟨l2, ?_⟩, ?_, ?_⟩
  · rw [hl2]
    simp
  · obtain ⟨c', m', hs3src, hs3m, hs3c⟩ := hfull3
    exact ⟨c', m', hs3src, hs3m, hs3c⟩
  · simp [mset]

/-! ### Claim theorems -/

/-- C9: for every path whose cache copy exists, getattr returns the metadata
of the cached copy and never consults the source: the same attributes come
back for every source tree, in particular an empty or vanished one. -/
theorem C9_getattr_cache_wins (s : SysState) (p : VPath) (n : Node)
    (h : FS.lookup s.cache p = some n) :
    getattr s p = .ok (Node.statR n)
    ∧ ∀ src : FS, getattr {s with source := src} p = .ok (Node.statR n) := by
  constructor
  · simp [getattr, h]
  · intro src
    simp [getattr, h]

def s9 : SysState where
  source := [(["d"], .dir 10), (["d", "x"], .file [7, 8] 9)]
  cache := [(["d", "x"], .file [7] 5)]
  dir_mtimes := fun _ => none
  file_mtimes := fun _ => none
  fetches := []
  copies := []
  now := 50

theorem C9_getattr_cache_wins_witness :
    getattr s9 ["d", "x"] = .ok (Node.statR (.file [7] 5))
    ∧ getattr {s9 with source := []} ["d", "x"] = .ok (Node.statR (.file [7] 5)) := by
  have h := C9_getattr_cache_wins s9 ["d", "x"] (.file [7] 5) (by decide)
  exact ⟨h.1, h.2 []⟩

/-- C10: create over an existing source file succeeds, removes only the
parent-directory freshness entry, leaves the whole file_mtimes dict (and
every other dir_mtimes key) unchanged, and when the recreated file's mtime
equals the recorded entry the next fetch_file still takes the fresh no-op
path. -/
theorem C10_create_keeps_file_entry (s : SysState) (p : VPath) (mode : Nat)
    (c : List Nat) (m : Nat)
    (hsp : FS.lookup s.source p = some (.file c m)) :
    ∃ s', create s p mode = (s', .ok 0)
      ∧ s'.file_mtimes = s.file_mtimes
      ∧ s'.dir_mtimes (List.dropLast p) = none
      ∧ (∀ q, q ≠ List.dropLast p → s'.dir_mtimes q = s.dir_mtimes q)
      ∧ (s.file_mtimes p = some s.now →
          fetch_file s' p = ({s' with fetches := s'.fetches ++ [p]}, .ok ())) := by
  have hc : create s p mode
      = ({s with source := FS.insert s.source p (.file [] s.now),
                 dir_mtimes := mpop s.dir_mtimes (List.dropLast p)}, .ok 0) := by
    simp [create, hsp]
  refine ⟨_, hc, rfl, by simp [mpop], fun q hq => by simp [mpop, hq], ?_⟩
  intro hfm
  apply fetch_file_fresh (n := .file [] s.now)
  · exact lookup_insert _ p _
  · simpa [Node.mtime] using hfm

def s10 : SysState where
  source := [(["d"], .dir 10), (["d", "x"], .file [1, 2] 50)]
  cache := [(["d", "x"], .file [1, 2] 50)]
  dir_mtimes := fun q => if q = ["d"] then some 10 else none
  file_mtimes := fun q => if q = ["d", "x"] then some 50 else none
  fetches := []
  copies := []
  now := 50

theorem C10_create_keeps_file_entry_witness :
    ∃ s', create s10 ["d", "x"] 33 = (s', .ok 0)
      ∧ s'.file_mtimes = s10.file_mtimes
      ∧ s'.dir_mtimes ["d"] = none
      ∧ (∀ q, q ≠ ["d"] → s'.dir_mtimes q = s10.dir_mtimes q)
      ∧ (s10.file_mtimes ["d", "x"] = some 50 →
          fetch_file s' ["d", "x"]
            = ({s' with fetches := s'.fetches ++ [["d", "x"]]}, .ok ())) :=
  C10_create_keeps_file_entry s10 ["d", "x"] 33 [1, 2] 50 (by decide)

/-- C6: after a successful fetch_file, an immediate second fetch_file on the
unchanged source finds the recorded entry equal to the source mtime and
returns after only logging the call: no copy, no cache or dict change.  When
the first call saw a stale or absent entry, it performed exactly one copy. -/
theorem C6_fetch_file_once (s : SysState) (p : VPath)
    (h : (fetch_file s p).2 = .ok ()) :
    fetch_file (fetch_file s p).1 p
      = ({(fetch_file s p).1 with fetches := (fetch_file s p).1.fetches ++ [p]}, .ok ())
    ∧ (∀ node, FS.lookup s.source p = some node →
        ¬ s.file_mtimes p = some (Node.mtime node) →
        (fetch_file s p).1.copies = s.copies ++ [p]) := by
  rcases fetch_file_cases s p with ⟨hn, he⟩ | ⟨node, hn, hm, he⟩ | ⟨node, e, hn, hm, hmk, he⟩
    | ⟨mm, c1, hn, hm, hmk, he⟩ | ⟨cf, mtf, c1, hn, hm, hmk, hcc, he⟩
    | ⟨cf, mtf, c1, x, hn, hm, hmk, hcc, he⟩ <;> rw [he] at h ⊢
  · simp at h
  · constructor
    · exact fetch_file_fresh hn hm
    · intro node' hn' hm'
      rw [hn] at hn'
      injection hn' with h5
      rw [← h5] at hm'
      exact absurd hm hm'
  · simp at h
  · simp at h
  · constructor
    · exact fetch_file_fresh hn (by simp [mset, Node.mtime])
    · intro node' hn' hm'
      rfl
  · constructor
    · exact fetch_file_fresh hn (by simp [mset, Node.mtime])
    · intro node' hn' hm'
      rfl

def s6 : SysState where
  source := [(["d"], .dir 10), (["d", "x"], .file [3, 4] 21)]
  cache := [(["d"], .dir 0)]
  dir_mtimes := fun _ => none
  file_mtimes := fun _ => none
  fetches := []
  copies := []
  now := 90

theorem C6_fetch_file_once_witness :
    fetch_file (fetch_file s6 ["d", "x"]).1 ["d", "x"]
      = ({(fetch_file s6 ["d", "x"]).1 with
            fetches := (fetch_file s6 ["d", "x"]).1.fetches ++ [["d", "x"]]}, .ok ())
    ∧ (fetch_file s6 ["d", "x"]).1.copies = [["d", "x"]] := by
  have h := C6_fetch_file_once s6 ["d", "x"] (by decide)
  exact ⟨h.1, h.2 (.file [3, 4] 21) (by decide) (by decide)⟩

/-- C8: when the source directory cannot be stat'd, _refresh_dir raises the
errno-carrying error of the stat (the same OS-error-code taxonomy the
listdir branch produces), performs no fetch and no copy, and leaves both
freshness dicts untouched: the directory is neither treated as empty nor
marked fresh. -/
theorem C8_refresh_stat_error (s : SysState) (d : VPath) (pr : Option VPath)
    (hclear : DirsClear s.cache d) (hmiss : FS.lookup s.source d = none) :
    ∃ s', refresh_dir s d pr = (s', .error ENOENT)
      ∧ s'.dir_mtimes = s.dir_mtimes
      ∧ s'.file_mtimes = s.file_mtimes
      ∧ s'.fetches = s.fetches
      ∧ s'.copies = s.copies
      ∧ s'.source = s.source := by
  obtain ⟨c1, hmk⟩ := makedirs_exists_of_clear hclear
  have hstat : FS.statM s.source d = .error ENOENT := by simp [FS.statM, hmiss]
  refine ⟨{s with cache := c1}, ?_, rfl, rfl, rfl, rfl, rfl⟩
  rw [refresh_dir]
  simp only [hmk, hstat]

def s8 : SysState where
  source := []
  cache := []
  dir_mtimes := fun q => if q = ["d"] then some 4 else none
  file_mtimes := fun _ => none
  fetches := []
  copies := []
  now := 3

theorem C8_refresh_stat_error_witness :
    ∃ s', refresh_dir s8 ["d"] none = (s', .error ENOENT)
      ∧ s'.dir_mtimes = s8.dir_mtimes
      ∧ s'.file_mtimes = s8.file_mtimes
      ∧ s'.fetches = s8.fetches
      ∧ s'.copies = s8.copies
      ∧ s'.source = s8.source :=
  C8_refresh_stat_error s8 ["d"] none (by decide) (by decide)

theorem refreshFinish_ok_inv {sF : SysState} {d : VPath} {es : List String}
    {dm : Nat} {s' : SysState}
    (hA : AllDirs sF.cache d)
    (hok : refreshFinish sF d es dm = (s', .ok ())) :
    s'.dir_mtimes d = some dm
    ∧ (∀ q, FreshMark sF q → FreshMark s' q)
    ∧ (∀ e ∈ es, ∀ c m, FS.lookup sF.source (d ++ [e]) = some (.file c m) →
        FreshMark s' (d ++ [e])) := by
  obtain ⟨m1, m2, m3, m4, m5, m6⟩ := fetchEntries_main d es sF hA
  rcases hFE : fetchEntries d es sF with ⟨s3, r3⟩
  rw [hFE] at m1 m3 m6
  have hr3 : r3 = .ok () := by simpa using m1
  subst hr3
  rw [refreshFinish] at hok
  simp only [hFE] at hok
  have hs' : s' = {s3 with dir_mtimes := mset s3.dir_mtimes d dm} :=
    (congrArg Prod.fst hok).symm
  subst hs'
  refine ⟨by simp [mset], ?_, ?_⟩
  · intro q hq
    exact m3 q hq
  · intro e he c m hsp
    exact (m6 e he c m hsp).1

theorem refreshFinish_err_inv {sF : SysState} {d : VPath} {es : List String}
    {dm : Nat} {s' : SysState} {err : Nat}
    (h : refreshFinish sF d es dm = (s', .error err)) :
    s'.dir_mtimes = sF.dir_mtimes := by
  obtain ⟨ff1, ff2, ff3⟩ := fetchEntries_frame d es sF
  rw [refreshFinish] at h
  rcases hFE : fetchEntries d es sF with ⟨s3, r3⟩
  rw [hFE] at ff2
  simp only [hFE] at h
  cases r3 with
  | ok u =>
    simp at h
  | error e3 =>
    have hs' : s' = s3 := (congrArg Prod.fst h).symm
    subst hs'
    exact ff2

theorem listdirE_ok_inv {fs : FS} {d : VPath} {entries : List String}
    (h : FS.listdirE fs d = .ok entries) :
    entries = FS.listdir fs d ∧ ∃ dm, FS.lookup fs d = some (.dir dm) := by
  rw [FS.listdirE] at h
  rcases hL : FS.lookup fs d with _ | n
  · rw [hL] at h
    exact Except.noConfusion h
  · cases n with
    | file c m =>
      rw [hL] at h
      exact Except.noConfusion h
    | dir dm =>
      rw [hL] at h
      injection h with h5
      exact ⟨h5.symm, dm, rfl⟩

/-- C5: on a directory refresh with a priority file whose basename is among
the listed entries, the priority file is the first fetch of the pass, and
(the listing having no duplicate names) it is never fetched again in the
same pass. -/
theorem C5_priority_first (s : SysState) (d : VPath) (pf : VPath)
    (entries : List String)
    (hclear : DirsClear s.cache d)
    (hld : FS.listdirE s.source d = .ok entries)
    (hmem : basename pf ∈ entries)
    (hnd : entries.Nodup) :
    ∃ l, (refresh_dir s d (some pf)).1.fetches = s.fetches ++ pf :: l ∧ pf ∉ l := by
  obtain ⟨c1, hmk⟩ := makedirs_exists_of_clear hclear
  obtain ⟨-, dm0, hL⟩ := listdirE_ok_inv hld
  have hstat : FS.statM s.source d = .ok dm0 := by
    simp [FS.statM, hL, Node.mtime]
  rw [refresh_dir]
  simp only [hmk, hstat, hld, if_pos hmem]
  obtain ⟨-, -, -, hf4⟩ := fetch_file_frame ({s with cache := c1}) pf
  rcases hres : fetch_file ({s with cache := c1}) pf with ⟨s2, r2⟩
  rw [hres] at hf4
  cases r2 with
  | error err =>
    simp only [hres]
    exact ⟨[], hf4, by simp⟩
  | ok u =>
    simp only [hres]
    rw [refreshFinish]
    obtain ⟨⟨l1, hl1, hml1⟩, -⟩ := fetchEntries_log d (List.erase entries (basename pf)) s2
    rcases hFE : fetchEntries d (List.erase entries (basename pf)) s2 with ⟨s3, r3⟩
    rw [hFE] at hl1
    have hnotin : pf ∉ l1 := by
      intro hmem2
      obtain ⟨e', he', hk⟩ := hml1 pf hmem2
      have hbe : basename pf = e' := by rw [hk, basename_concat]
      rw [← hbe] at he'
      have := (List.Nodup.mem_erase_iff hnd).mp he'
      exact this.1 rfl
    have hfin : s3.fetches = s.fetches ++ pf :: l1 := by
      rw [hl1, hf4, List.append_assoc]
      rfl
    cases r3 with
    | ok u3 => exact ⟨l1, hfin, hnotin⟩
    | error e3 => exact ⟨l1, hfin, hnotin⟩

def s5 : SysState where
  source := [(["d"], .dir 10), (["d", "a"], .file [1] 1),
             (["d", "b"], .file [2] 2), (["d", "c"], .file [3] 3)]
  cache := []
  dir_mtimes := fun _ => none
  file_mtimes := fun _ => none
  fetches := []
  copies := []
  now := 9

theorem C5_priority_first_witness :
    ∃ l, (refresh_dir s5 ["d"] (some ["d", "b"])).1.fetches
        = [] ++ ["d", "b"] :: l ∧ ["d", "b"] ∉ l :=
  C5_priority_first s5 ["d"] ["d", "b"] ["a", "b", "c"]
    (by decide) (by decide) (by decide) (by decide)

/-- C4: whenever _refresh_dir completes successfully (called, as in the
code, with a priority file lying in the refreshed directory), the directory
freshness entry is set to the source-directory mtime observed before the
listing, and every regular-file child listed at entry holds a freshness
entry matching its source mtime; whenever the call raises instead, the
dir_mtimes dict is unchanged, so the directory is never marked fresh before
the fetches of the pass have completed. -/
theorem C4_refresh_marks_after_fetches (s : SysState) (d : VPath)
    (pr : Option VPath)
    (hpr : pr = none ∨ ∃ q, pr = some q ∧ List.dropLast q = d ∧ q ≠ []) :
    (∀ s', refresh_dir s d pr = (s', .ok ()) →
       (∃ dm, FS.statM s.source d = .ok dm ∧ s'.dir_mtimes d = some dm)
       ∧ (∀ e ∈ FS.listdir s.source d, ∀ c m,
            FS.lookup s.source (d ++ [e]) = some (.file c m) →
            FreshMark s' (d ++ [e])))
    ∧ (∀ s' err, refresh_dir s d pr = (s', .error err) →
        s'.dir_mtimes = s.dir_mtimes) := by
  constructor
  · intro s' hok
    rw [refresh_dir] at hok
    rcases hmk : FS.makedirsE s.cache d with e | c1
    · simp only [hmk] at hok
      simp at hok
    · simp only [hmk] at hok
      obtain ⟨hc1A, -, -⟩ := makedirs_ok_props hmk
      rcases hstat : FS.statM s.source d with e | dm
      · simp only [hstat] at hok
        simp at hok
      · simp only [hstat] at hok
        rcases hld : FS.listdirE s.source d with e | entries
        · simp only [hld] at hok
          simp at hok
        · simp only [hld] at hok
          obtain ⟨hent, -⟩ := listdirE_ok_inv hld
          subst hent
          rcases hpr with hpr0 | ⟨qpf, hpr1, hpfd, hq0⟩
          · simp only [hpr0] at hok
            obtain ⟨r1, r2, r3⟩ :=
              refreshFinish_ok_inv hc1A hok
            exact ⟨⟨dm, rfl, r1⟩, fun e he c m hsp => r3 e he c m hsp⟩
          · simp only [hpr1] at hok
            by_cases hmem : basename qpf ∈ FS.listdir s.source d
            · rw [if_pos hmem] at hok
              have hqpf : d ++ [basename qpf] = qpf := by
                rw [← hpfd]
                exact dropLast_concat_basename hq0
              obtain ⟨hf1, hf2, hf3, hf4⟩ := fetch_file_frame ({s with cache := c1}) qpf
              have hallP := fetch_pres_alldirs (s := {s with cache := c1}) hc1A hpfd
              rcases hres : fetch_file ({s with cache := c1}) qpf with ⟨s2, r2⟩
              rw [hres] at hf1 hf2 hf3 hf4 hallP
              simp only [hres] at hok
              cases r2 with
              | error err => simp at hok
              | ok u =>
                obtain ⟨r1, r2', r3⟩ := refreshFinish_ok_inv hallP hok
                refine ⟨⟨dm, rfl, r1⟩, ?_⟩
                intro e he c m hsp
                by_cases heq : e = basename qpf
                · subst heq
                  rw [hqpf] at hsp ⊢
                  obtain ⟨hfok, hfmark, -⟩ :=
                    fetch_establish (s := {s with cache := c1}) hsp
                      (by rw [hpfd]; exact hc1A)
                  rw [hres] at hfmark
                  exact r2' qpf hfmark
                · have he2 : e ∈ List.erase (FS.listdir s.source d) (basename qpf) :=
                    (List.mem_erase_of_ne heq).mpr he
                  exact r3 e he2 c m (by rw [hf1]; exact hsp)
            · rw [if_neg hmem] at hok
              obtain ⟨r1, r2', r3⟩ :=
                refreshFinish_ok_inv hc1A hok
              exact ⟨⟨dm, rfl, r1⟩, fun e he c m hsp => r3 e he c m hsp⟩
  · intro s' err herr
    rw [refresh_dir] at herr
    rcases hmk : FS.makedirsE s.cache d with e | c1
    · simp only [hmk] at herr
      have hs' : s' = s := (congrArg Prod.fst herr).symm
      subst hs'
      rfl
    · simp only [hmk] at herr
      rcases hstat : FS.statM s.source d with e | dm
      · simp only [hstat] at herr
        have hs' : s' = {s with cache := c1} := (congrArg Prod.fst herr).symm
        subst hs'
        rfl
      · simp only [hstat] at herr
        rcases hld : FS.listdirE s.source d with e | entries
        · simp only [hld] at herr
          have hs' : s' = {s with cache := c1} := (congrArg Prod.fst herr).symm
          subst hs'
          rfl
        · simp only [hld] at herr
          rcases hpr with hpr0 | ⟨qpf, hpr1, hpfd, hq0⟩
          · simp only [hpr0] at herr
            have hh := refreshFinish_err_inv herr
            exact hh
          · simp only [hpr1] at herr
            by_cases hmem : basename qpf ∈ entries
            · rw [if_pos hmem] at herr
              obtain ⟨-, hf2, -, -⟩ := fetch_file_frame ({s with cache := c1}) qpf
              rcases hres : fetch_file ({s with cache := c1}) qpf with ⟨s2, r2⟩
              rw [hres] at hf2
              simp only [hres] at herr
              cases r2 with
              | ok u =>
                have hh := refreshFinish_err_inv herr
                rw [hh, hf2]
              | error e2 =>
                have hs' : s' = s2 := (congrArg Prod.fst herr).symm
                subst hs'
                exact hf2
            · rw [if_neg hmem] at herr
              have hh := refreshFinish_err_inv herr
              exact hh

def s4 : SysState where
  source := [(["d"], .dir 10), (["d", "a"], .file [1] 6), (["d", "b"], .file [2] 7)]
  cache := []
  dir_mtimes := fun _ => none
  file_mtimes := fun _ => none
  fetches := []
  copies := []
  now := 9

theorem C4_refresh_marks_after_fetches_witness :
    (∀ s', refresh_dir s4 ["d"] (some ["d", "a"]) = (s', .ok ()) →
       (∃ dm, FS.statM s4.source ["d"] = .ok dm ∧ s'.dir_mtimes ["d"] = some dm)
       ∧ (∀ e ∈ FS.listdir s4.source ["d"], ∀ c m,
            FS.lookup s4.source (["d"] ++ [e]) = some (.file c m) →
            FreshMark s' (["d"] ++ [e])))
    ∧ (∀ s' err, refresh_dir s4 ["d"] (some ["d", "a"]) = (s', .error err) →
        s'.dir_mtimes = s4.dir_mtimes) :=
  C4_refresh_marks_after_fetches s4 ["d"] (some ["d", "a"])
    (Or.inr ⟨["d", "a"], rfl, rfl, by decide⟩)

theorem writeBytes_slice (c : List Nat) (off : Nat) (data : List Nat) :
    List.take data.length (List.drop off (writeBytes c off data)) = data := by
  have hpre : (List.take off c ++ List.replicate (off - c.length) 0).length = off := by
    simp only [List.length_append, List.length_take, List.length_replicate]
    omega
  have key : ∀ A B : List Nat, A.length = off →
      List.take data.length (List.drop off (A ++ (data ++ B))) = data := by
    intro A B hA
    rw [← hA, List.drop_left, List.take_left]
  rw [writeBytes]
  exact key _ _ hpre

/-- C1 (amended): the staleness decision of read is taken at directory
granularity: when the parent-directory freshness entry equals the current
source-directory mtime, read trusts the cache and serves it without any
refresh, whatever the file entry says; when the directory entry is absent or
differs and the file entry is stale too, read refetches the file and returns
the new source content. -/
theorem C1_read_staleness_dir_granularity (s : SysState) (p : VPath)
    (sz off : Nat) :
    (∀ dm, FS.statM s.source (List.dropLast p) = .ok dm →
       s.dir_mtimes (List.dropLast p) = some dm →
       read s p sz off = readCache s p sz off)
    ∧ (∀ c mt dm, p ≠ [] →
        FS.lookup s.source (List.dropLast p) = some (.dir dm) →
        FS.lookup s.source p = some (.file c mt) →
        ¬ s.dir_mtimes (List.dropLast p) = some dm →
        ¬ s.file_mtimes p = some mt →
        isDirN (FS.lookup s.cache p) = false →
        DirsClear s.cache (List.dropLast p) →
        ∃ s', read s p sz off = (s', .ok (List.take sz (List.drop off c)))
          ∧ (∃ l, s'.copies = s.copies ++ p :: l)) := by
  constructor
  · intro dm h1 h2
    exact read_dir_fresh sz off h1 h2
  · intro c mt dm hp h1 h2 h3 h4 h5 h6
    obtain ⟨s', hr, hcop, -, -⟩ := read_refetch sz off hp h1 h2 h3 h4 h5 h6
    exact ⟨s', hr, hcop⟩

def s1c : SysState where
  source := [(["d"], .dir 10), (["d", "x"], .file [9] 7)]
  cache := [(["d"], .dir 0), (["d", "x"], .file [1] 5)]
  dir_mtimes := fun q => if q = ["d"] then some 10 else none
  file_mtimes := fun q => if q = ["d", "x"] then some 5 else none
  fetches := []
  copies := []
  now := 100

/-- C1 counterexample: an external change bumped the source file mtime from
T1 = 5 (the recorded FileFreshness entry) to T2 = 7 with new content [9],
while the parent-directory mtime stayed at the recorded 10.  The next read
does NOT detect the staleness: it performs no fetch and no copy and returns
the stale cached byte [1] instead of the new content [9], so the cache
content is trusted although the FileFreshness entry differs from the source
mtime at the moment of the check. -/
theorem C1_counterexample :
    s1c.file_mtimes ["d", "x"] = some 5
    ∧ FS.lookup s1c.source ["d", "x"] = some (.file [9] 7)
    ∧ FS.lookup s1c.cache ["d", "x"] = some (.file [1] 5)
    ∧ (read s1c ["d", "x"] 1 0).2 = .ok [1]
    ∧ (read s1c ["d", "x"] 1 0).1.copies = []
    ∧ (read s1c ["d", "x"] 1 0).1.fetches = []
    ∧ (read s1c ["d", "x"] 1 0).2 ≠ .ok [9] := by
  refine ⟨?_, ?_, ?_, ?_, ?_, ?_, ?_⟩ <;> decide

def s1b : SysState := {s1c with dir_mtimes := fun _ => none}

theorem C1_read_staleness_dir_granularity_witness :
    read s1c ["d", "x"] 1 0 = readCache s1c ["d", "x"] 1 0
    ∧ ∃ s', read s1b ["d", "x"] 1 0 = (s', .ok [9])
        ∧ (∃ l, s'.copies = s1b.copies ++ ["d", "x"] :: l) := by
  constructor
  · exact (C1_read_staleness_dir_granularity s1c ["d", "x"] 1 0).1 10
      (by decide) (by decide)
  · exact (C1_read_staleness_dir_granularity s1b ["d", "x"] 1 0).2 [9] 7 10
      (by decide) (by decide) (by decide) (by decide) (by decide) (by decide)
      (by decide)

/-- C2 (amended): provided the write itself completes and returns the byte
count -- which in this code requires the cache-mirror step not to raise,
i.e. the cache path holds a regular file or nothing -- a write immediately
followed by a read of the same byte range (no intervening external change)
returns exactly the just-written bytes. -/
theorem C2_read_after_write (s : SysState) (p : VPath) (data : List Nat)
    (off : Nat) (c : List Nat) (m dm : Nat)
    (hp : p ≠ [])
    (hsd : FS.lookup s.source (List.dropLast p) = some (.dir dm))
    (hsp : FS.lookup s.source p = some (.file c m))
    (hcp : isDirN (FS.lookup s.cache p) = false)
    (hdc : DirsClear s.cache (List.dropLast p)) :
    ∃ s1, write s p data off = (s1, .ok data.length)
      ∧ ∃ s2, read s1 p data.length off = (s2, .ok data) := by
  have hlenp : (List.dropLast p).length < p.length := by
    rw [List.length_dropLast]
    have := List.length_pos.mpr hp
    omega
  have hdne : List.dropLast p ≠ p := by
    intro he
    have := congrArg List.length he
    omega
  rcases hcl : FS.lookup s.cache p with _ | n
  · have hw : write s p data off
        = ({s with source := FS.insert s.source p (.file (writeBytes c off data) s.now),
                   file_mtimes := mpop s.file_mtimes p,
                   dir_mtimes := mpop s.dir_mtimes (List.dropLast p)}, .ok data.length) := by
      simp [write, hsp, hcl]
    refine ⟨_, hw, ?_⟩
    obtain ⟨s2, hr, -, -, -⟩ := read_refetch (s := ({s with
        source := FS.insert s.source p (.file (writeBytes c off data) s.now),
        file_mtimes := mpop s.file_mtimes p,
        dir_mtimes := mpop s.dir_mtimes (List.dropLast p)})) data.length off hp
      (by rw [lookup_insert_ne _ hdne]; exact hsd)
      (lookup_insert _ p _)
      (by simp [mpop])
      (by simp [mpop])
      (by rw [hcl]; rfl)
      hdc
    rw [writeBytes_slice] at hr
    exact ⟨s2, hr⟩
  · cases n with
    | dir x =>
      rw [hcl] at hcp
      simp [isDirN] at hcp
    | file cc mm =>
      have hw : write s p data off
          = ({s with source := FS.insert s.source p (.file (writeBytes c off data) s.now),
                     cache := FS.insert s.cache p (.file (writeBytes cc off data) s.now),
                     file_mtimes := mpop s.file_mtimes p,
                     dir_mtimes := mpop s.dir_mtimes (List.dropLast p)}, .ok data.length) := by
        simp [write, hsp, hcl]
      refine ⟨_, hw, ?_⟩
      obtain ⟨s2, hr, -, -, -⟩ := read_refetch (s := ({s with
          source := FS.insert s.source p (.file (writeBytes c off data) s.now),
          cache := FS.insert s.cache p (.file (writeBytes cc off data) s.now),
          file_mtimes := mpop s.file_mtimes p,
          dir_mtimes := mpop s.dir_mtimes (List.dropLast p)})) data.length off hp
        (by rw [lookup_insert_ne _ hdne]; exact hsd)
        (lookup_insert _ p _)
        (by simp [mpop])
        (by simp [mpop])
        (by rw [lookup_insert]; rfl)
        (dirsClear_insert _ hdc hlenp)
      rw [writeBytes_slice] at hr
      exact ⟨s2, hr⟩

def s2w : SysState where
  source := [(["d"], .dir 10), (["d", "x"], .file [1, 2, 3] 5)]
  cache := []
  dir_mtimes := fun q => if q = ["d"] then some 10 else none
  file_mtimes := fun q => if q = ["d", "x"] then some 5 else none
  fetches := []
  copies := []
  now := 50

theorem C2_read_after_write_witness :
    ∃ s1, write s2w ["d", "x"] [7, 8] 1 = (s1, .ok 2)
      ∧ ∃ s2, read s1 ["d", "x"] 2 1 = (s2, .ok [7, 8]) :=
  C2_read_after_write s2w ["d", "x"] [7, 8] 1 [1, 2, 3] 5 10
    (by decide) (by decide) (by decide) (by decide) (by decide)

def s2c : SysState where
  source := [(["d"], .dir 10), (["d", "x"], .file [1, 2, 3] 5)]
  cache := [(["d", "x"], .dir 0)]
  dir_mtimes := fun _ => none
  file_mtimes := fun _ => none
  fetches := []
  copies := []
  now := 50

/-- C2 counterexample: the write's source mutation succeeds (the new byte
reaches the source file) while the cache mirror step fails (the cache path
is occupied by a directory, so opening it r+b raises EISDIR).  The
immediately following read of the same byte range does not return the
just-written bytes: it raises EISDIR as well.  This falsifies the claim's
"regardless of whether the write's cache mirror step succeeded". -/
theorem C2_counterexample :
    FS.lookup (write s2c ["d", "x"] [7] 0).1.source ["d", "x"]
      = some (.file [7, 2, 3] 50)
    ∧ (write s2c ["d", "x"] [7] 0).2 = .error EISDIR
    ∧ (read (write s2c ["d", "x"] [7] 0).1 ["d", "x"] 1 0).2 = .error EISDIR
    ∧ (read (write s2c ["d", "x"] [7] 0).1 ["d", "x"] 1 0).2 ≠ .ok [7] := by
  refine ⟨?_, ?_, ?_, ?_⟩ <;> decide

/-- C3 (amended): the cache-mirror step of write is best-effort only in the
sense that it is skipped when no cache copy exists; it is not guarded
against failure.  When the cache copy is a regular file, the range is
mirrored and write returns the byte count; when no copy exists, the mirror
is skipped and write returns the byte count; but when writing the cache
copy fails (the path is occupied by a directory), the exception propagates
and write does not return the byte count, even though the source mutation
and the freshness invalidations persist. -/
theorem C3_write_mirror_not_guarded (s : SysState) (p : VPath)
    (data : List Nat) (off : Nat) (c : List Nat) (m : Nat)
    (hsp : FS.lookup s.source p = some (.file c m)) :
    (FS.lookup s.cache p = none →
       write s p data off
         = ({s with source := FS.insert s.source p (.file (writeBytes c off data) s.now),
                    file_mtimes := mpop s.file_mtimes p,
                    dir_mtimes := mpop s.dir_mtimes (List.dropLast p)}, .ok data.length))
    ∧ (∀ cc mm, FS.lookup s.cache p = some (.file cc mm) →
        write s p data off
          = ({s with source := FS.insert s.source p (.file (writeBytes c off data) s.now),
                     cache := FS.insert s.cache p (.file (writeBytes cc off data) s.now),
                     file_mtimes := mpop s.file_mtimes p,
                     dir_mtimes := mpop s.dir_mtimes (List.dropLast p)}, .ok data.length))
    ∧ (∀ x, FS.lookup s.cache p = some (.dir x) →
        (write s p data off).2 = .error EISDIR
        ∧ FS.lookup (write s p data off).1.source p
            = some (.file (writeBytes c off data) s.now)
        ∧ (write s p data off).1.file_mtimes p = none
        ∧ (write s p data off).1.dir_mtimes (List.dropLast p) = none) := by
  refine ⟨?_, ?_, ?_⟩
  · intro hc
    simp [write, hsp, hc]
  · intro cc mm hc
    simp [write, hsp, hc]
  · intro x hc
    have hw : write s p data off
        = ({s with source := FS.insert s.source p (.file (writeBytes c off data) s.now),
                   file_mtimes := mpop s.file_mtimes p,
                   dir_mtimes := mpop s.dir_mtimes (List.dropLast p)}, .error EISDIR) := by
      simp [write, hsp, hc]
    rw [hw]
    exact ⟨rfl, lookup_insert _ p _, by simp [mpop], by simp [mpop]⟩

def s3w : SysState where
  source := [(["d"], .dir 10), (["d", "x"], .file [1, 2] 5)]
  cache := [(["d", "x"], .file [5, 6] 7)]
  dir_mtimes := fun _ => none
  file_mtimes := fun _ => none
  fetches := []
  copies := []
  now := 60

theorem C3_write_mirror_not_guarded_witness :
    write s3w ["d", "x"] [9] 0
      = ({s3w with
            source := FS.insert s3w.source ["d", "x"]
              (.file (writeBytes [1, 2] 0 [9]) s3w.now),
            cache := FS.insert s3w.cache ["d", "x"]
              (.file (writeBytes [5, 6] 0 [9]) s3w.now),
            file_mtimes := mpop s3w.file_mtimes ["d", "x"],
            dir_mtimes := mpop s3w.dir_mtimes ["d"]}, .ok 1) :=
  (C3_write_mirror_not_guarded s3w ["d", "x"] [9] 0 [1, 2] 5 (by decide)).2.1
    [5, 6] 7 (by decide)

def s3c : SysState where
  source := [(["d"], .dir 10), (["d", "x"], .file [1, 2, 3] 5)]
  cache := [(["d", "x"], .dir 0)]
  dir_mtimes := fun _ => none
  file_mtimes := fun _ => none
  fetches := []
  copies := []
  now := 50

/-- C3 counterexample: the source-file mutation of the write succeeds, the
cache mirror step fails (the cache path is occupied by a directory), and
the write operation does NOT return the number of bytes written: it raises
EISDIR, so the cache-only failure is visible to the caller. -/
theorem C3_counterexample :
    FS.lookup (write s3c ["d", "x"] [7] 0).1.source ["d", "x"]
      = some (.file [7, 2, 3] 50)
    ∧ (write s3c ["d", "x"] [7] 0).2 = .error EISDIR
    ∧ (write s3c ["d", "x"] [7] 0).2 ≠ .ok 1 := by
  refine ⟨?_, ?_, ?_⟩ <;> decide

/-- A read of a path that is gone from the source and absent from the cache
fails with ENOENT: the refresh re-lists the directory (the vanished name is
not among the entries, so the priority fetch is skipped), the remaining
fetches succeed, and the final open of the cache copy raises ENOENT. -/
theorem read_missing {s : SysState} {p : VPath} (dm sz off : Nat)
    (hp : p ≠ [])
    (hsd : FS.lookup s.source (List.dropLast p) = some (.dir dm))
    (hsp : FS.lookup s.source p = none)
    (hdm : s.dir_mtimes (List.dropLast p) = none)
    (hcp : FS.lookup s.cache p = none)
    (hdc : DirsClear s.cache (List.dropLast p)) :
    (read s p sz off).2 = .error ENOENT := by
  have hstat : FS.statM s.source (List.dropLast p) = .ok dm := by
    simp [FS.statM, hsd, Node.mtime]
  have hnr : needs_refresh s p = true := by
    simp [needs_refresh, hstat, hdm]
  have hlenp : (List.dropLast p).length < p.length := by
    rw [List.length_dropLast]
    have := List.length_pos.mpr hp
    omega
  obtain ⟨c1, hmk⟩ := makedirs_exists_of_clear hdc
  obtain ⟨hc1A, hc1pres, hc1long⟩ := makedirs_ok_props hmk
  have hld : FS.listdirE s.source (List.dropLast p)
      = .ok (FS.listdir s.source (List.dropLast p)) := by
    simp [FS.listdirE, hsd]
  have hnm : basename p ∉ FS.listdir s.source (List.dropLast p) := by
    have hpp := dropLast_concat_basename hp
    exact not_mem_listdir (by rw [hpp]; exact hsp)
  rw [read, if_pos hnr, refresh_dir]
  simp only [hmk, hstat, hld, if_neg hnm]
  rw [refreshFinish]
  obtain ⟨m1, m2, m3, m4, m5, m6⟩ := fetchEntries_main (List.dropLast p)
    (FS.listdir s.source (List.dropLast p)) ({s with cache := c1}) hc1A
  rcases hFE : fetchEntries (List.dropLast p)
      (FS.listdir s.source (List.dropLast p)) ({s with cache := c1}) with ⟨s3, r3⟩
  rw [hFE] at m1 m5
  have hr3 : r3 = .ok () := by simpa using m1
  subst hr3
  simp only [hFE]
  have hc3 : FS.lookup s3.cache p = none := by
    rw [m5 p rfl hp hnm]
    show FS.lookup c1 p = none
    rw [hc1long p hlenp]
    exact hcp
  rw [readCache]
  simp only [hc3]

/-- C7: any rename whose source rename succeeds removes the file-freshness
entry of old and both parent-directory freshness entries; moreover, in the
same-directory file-rename scenario of the spec, the cache copy of old (when
one exists) is renamed to the cache path of new after the cache parent is
ensured, and a subsequent read of old fails with the NotFound errno. -/
theorem C7_rename_moves_cache (s : SysState) (d : VPath) (a b : String)
    (c : List Nat) (m dm : Nat)
    (hab : a ≠ b)
    (hold : FS.lookup s.source (d ++ [a]) = some (.file c m))
    (hd : FS.lookup s.source d = some (.dir dm))
    (hnew : isDirN (FS.lookup s.source (d ++ [b])) = false)
    (hcc : DirsClear s.cache d)
    (hcb : isDirN (FS.lookup s.cache (d ++ [b])) = false) :
    (∀ old nw s'', rename s old nw = (s'', .ok ()) →
        s''.file_mtimes old = none
        ∧ s''.dir_mtimes (List.dropLast old) = none
        ∧ s''.dir_mtimes (List.dropLast nw) = none)
    ∧ (∃ s', rename s (d ++ [a]) (d ++ [b]) = (s', .ok ())
        ∧ (∀ n, FS.lookup s.cache (d ++ [a]) = some n →
            FS.lookup s'.cache (d ++ [b]) = some n)
        ∧ FS.lookup s'.cache (d ++ [a]) = none
        ∧ (∀ sz off, (read s' (d ++ [a]) sz off).2 = .error ENOENT)) := by
  constructor
  · -- general invalidation part, by inversion on a successful rename
    intro old nw s'' h
    rw [rename] at h
    rcases h1 : FS.lookup s.source old with _ | n1
    · simp only [h1] at h
      simp at h
    · simp only [h1] at h
      rcases h2 : FS.lookup s.source nw with _ | n2
      · simp only [h2] at h
        rcases h3 : FS.lookup s.source (List.dropLast nw) with _ | n3
        · simp only [h3] at h
          simp at h
        · cases n3 with
          | file c3 m3 =>
            simp only [h3] at h
            simp at h
          | dir m3 =>
            simp only [h3] at h
            rcases h4 : FS.lookup s.cache old with _ | n4
            · simp only [h4] at h
              have hs : s'' = _ := (congrArg Prod.fst h).symm
              subst hs
              refine ⟨by simp [mpop], by simp [mpop], by simp [mpop]⟩
            · simp only [h4] at h
              rcases h5 : FS.makedirsE s.cache (List.dropLast nw) with e5 | c5
              · simp only [h5] at h
                simp at h
              · simp only [h5] at h
                rcases h6 : FS.lookup c5 nw with _ | n6
                · simp only [h6] at h
                  have hs : s'' = _ := (congrArg Prod.fst h).symm
                  subst hs
                  refine ⟨by simp [mpop], by simp [mpop], by simp [mpop]⟩
                · cases n6 with
                  | dir m6 =>
                    simp only [h6] at h
                    simp at h
                  | file c6 m6 =>
                    simp only [h6] at h
                    have hs : s'' = _ := (congrArg Prod.fst h).symm
                    subst hs
                    refine ⟨by simp [mpop], by simp [mpop], by simp [mpop]⟩
      · cases n2 with
        | dir m2 =>
          simp only [h2] at h
          simp at h
        | file c2 m2 =>
          simp only [h2] at h
          rcases h3 : FS.lookup s.source (List.dropLast nw) with _ | n3
          · simp only [h3] at h
            simp at h
          · cases n3 with
            | file c3 m3 =>
              simp only [h3] at h
              simp at h
            | dir m3 =>
              simp only [h3] at h
              rcases h4 : FS.lookup s.cache old with _ | n4
              · simp only [h4] at h
                have hs : s'' = _ := (congrArg Prod.fst h).symm
                subst hs
                refine ⟨by simp [mpop], by simp [mpop], by simp [mpop]⟩
              · simp only [h4] at h
                rcases h5 : FS.makedirsE s.cache (List.dropLast nw) with e5 | c5
                · simp only [h5] at h
                  simp at h
                · simp only [h5] at h
                  rcases h6 : FS.lookup c5 nw with _ | n6
                  · simp only [h6] at h
                    have hs : s'' = _ := (congrArg Prod.fst h).symm
                    subst hs
                    refine ⟨by simp [mpop], by simp [mpop], by simp [mpop]⟩
                  · cases n6 with
                    | dir m6 =>
                      simp only [h6] at h
                      simp at h
                    | file c6 m6 =>
                      simp only [h6] at h
                      have hs : s'' = _ := (congrArg Prod.fst h).symm
                      subst hs
                      refine ⟨by simp [mpop], by simp [mpop], by simp [mpop]⟩
  · -- same-directory scenario
    have hdlb : List.dropLast (d ++ [b]) = d := List.dropLast_concat
    have hdla : List.dropLast (d ++ [a]) = d := List.dropLast_concat
    have hvno : vpre (d ++ [b]) (d ++ [a]) = false := vpre_concat_ne (Ne.symm hab)
    have hva : vpre (d ++ [a]) d = false := vpre_false_of_lt (by simp)
    have hvb : vpre (d ++ [b]) d = false := vpre_false_of_lt (by simp)
    have hane : (d ++ [a] : VPath) ≠ d := by
      intro he
      have := congrArg List.length he
      simp at this
    -- the source tree after the rename
    have hYd : FS.lookup (FS.renameFS s.source (d ++ [a]) (d ++ [b])) d
        = some (.dir dm) := by
      rw [lookup_renameFS_other _ hva hvb]
      exact hd
    have hYo : FS.lookup (FS.renameFS s.source (d ++ [a]) (d ++ [b])) (d ++ [a])
        = none := lookup_renameFS_gone _ hvno
    have hS1d : FS.lookup (FS.touch (FS.touch (FS.renameFS s.source (d ++ [a])
        (d ++ [b])) d s.now) d s.now) d = some (.dir s.now) := by
      rw [lookup_touch_self, lookup_touch_self, hYd]
      rfl
    have hS1o : FS.lookup (FS.touch (FS.touch (FS.renameFS s.source (d ++ [a])
        (d ++ [b])) d s.now) d s.now) (d ++ [a]) = none := by
      rw [lookup_touch_ne _ _ hane, lookup_touch_ne _ _ hane, hYo]
    rcases hnb : FS.lookup s.source (d ++ [b]) with _ | n2
    case some =>
      cases n2 with
      | dir m2 =>
        rw [hnb] at hnew
        simp [isDirN] at hnew
      | file c2 m2 =>
        rcases hco : FS.lookup s.cache (d ++ [a]) with _ | n0
        · have hren : rename s (d ++ [a]) (d ++ [b])
              = ({s with
                    source := FS.touch (FS.touch (FS.renameFS s.source (d ++ [a])
                      (d ++ [b])) d s.now) d s.now,
                    dir_mtimes := mpop (mpop s.dir_mtimes d) d,
                    file_mtimes := mpop s.file_mtimes (d ++ [a])}, .ok ()) := by
            simp [rename, hold, hnb, List.dropLast_concat, hd, hco]
          refine ⟨_, hren, ?_, hco, ?_⟩
          · intro n hn
            exact Option.noConfusion hn
          · intro sz off
            refine read_missing s.now sz off (by simp) ?_ ?_ ?_ ?_ ?_
            · rw [hdla]
              exact hS1d
            · exact hS1o
            · rw [hdla]
              simp [mpop]
            · exact hco
            · rw [hdla]
              exact hcc
        · obtain ⟨c1, hmk⟩ := makedirs_exists_of_clear hcc
          obtain ⟨hc1A, hc1pres, hc1long⟩ := makedirs_ok_props hmk
          have hlen1 : d.length < (d ++ [b]).length := by simp
          have hmk' : FS.makedirsE s.cache (List.dropLast (d ++ [b])) = .ok c1 := by
            rw [hdlb]
            exact hmk
          have hc1b : FS.lookup c1 (d ++ [b]) = FS.lookup s.cache (d ++ [b]) :=
            hc1long _ hlen1
          have hc1o : FS.lookup c1 (d ++ [a]) = FS.lookup s.cache (d ++ [a]) :=
            hc1long _ (by simp)
          have hdcR : DirsClear (FS.renameFS c1 (d ++ [a]) (d ++ [b])) d := by
            intro i hi
            have hlt : (List.take (i + 1) d).length < (d ++ [a]).length := by
              simp only [List.length_take, List.length_append, List.length_cons,
                List.length_nil]
              omega
            have hlt2 : (List.take (i + 1) d).length < (d ++ [b]).length := by
              simp only [List.length_take, List.length_append, List.length_cons,
                List.length_nil]
              omega
            rw [lookup_renameFS_other _ (vpre_false_of_lt hlt) (vpre_false_of_lt hlt2)]
            exact dirsClear_of_allDirs hc1A i hi
          rcases hc1b2 : FS.lookup c1 (d ++ [b]) with _ | n3
          case some =>
            cases n3 with
            | dir m3 =>
              rw [hc1b2] at hc1b
              rw [← hc1b] at hcb
              simp [isDirN] at hcb
            | file c3 m3 =>
              have hren : rename s (d ++ [a]) (d ++ [b])
                  = ({s with
                        source := FS.touch (FS.touch (FS.renameFS s.source (d ++ [a])
                          (d ++ [b])) d s.now) d s.now,
                        cache := FS.renameFS c1 (d ++ [a]) (d ++ [b]),
                        dir_mtimes := mpop (mpop s.dir_mtimes d) d,
                        file_mtimes := mpop s.file_mtimes (d ++ [a])}, .ok ()) := by
                simp [rename, hold, hnb, List.dropLast_concat, hd, hco, hmk, hc1b2]
              refine ⟨_, hren, ?_, ?_, ?_⟩
              · intro n hn
                rw [lookup_renameFS_nw _ hvno, hc1o, hco]
                exact hn
              · exact lookup_renameFS_gone _ hvno
              · intro sz off
                refine read_missing s.now sz off (by simp) ?_ ?_ ?_ ?_ ?_
                · rw [hdla]
                  exact hS1d
                · exact hS1o
                · rw [hdla]
                  simp [mpop]
                · exact lookup_renameFS_gone _ hvno
                · rw [hdla]
                  exact hdcR
          case none =>
            have hren : rename s (d ++ [a]) (d ++ [b])
                = ({s with
                      source := FS.touch (FS.touch (FS.renameFS s.source (d ++ [a])
                        (d ++ [b])) d s.now) d s.now,
                      cache := FS.renameFS c1 (d ++ [a]) (d ++ [b]),
                      dir_mtimes := mpop (mpop s.dir_mtimes d) d,
                      file_mtimes := mpop s.file_mtimes (d ++ [a])}, .ok ()) := by
              simp [rename, hold, hnb, List.dropLast_concat, hd, hco, hmk, hc1b2]
            refine ⟨_, hren, ?_, ?_, ?_⟩
            · intro n hn
              rw [lookup_renameFS_nw _ hvno, hc1o, hco]
              exact hn
            · exact lookup_renameFS_gone _ hvno
            · intro sz off
              refine read_missing s.now sz off (by simp) ?_ ?_ ?_ ?_ ?_
              · rw [hdla]
                exact hS1d
              · exact hS1o
              · rw [hdla]
                simp [mpop]
              · exact lookup_renameFS_gone _ hvno
              · rw [hdla]
                exact hdcR
    case none =>
      rcases hco : FS.lookup s.cache (d ++ [a]) with _ | n0
      · have hren : rename s (d ++ [a]) (d ++ [b])
            = ({s with
                  source := FS.touch (FS.touch (FS.renameFS s.source (d ++ [a])
                    (d ++ [b])) d s.now) d s.now,
                  dir_mtimes := mpop (mpop s.dir_mtimes d) d,
                  file_mtimes := mpop s.file_mtimes (d ++ [a])}, .ok ()) := by
          simp [rename, hold, hnb, List.dropLast_concat, hd, hco]
        refine ⟨_, hren, ?_, hco, ?_⟩
        · intro n hn
          exact Option.noConfusion hn
        · intro sz off
          refine read_missing s.now sz off (by simp) ?_ ?_ ?_ ?_ ?_
          · rw [hdla]
            exact hS1d
          · exact hS1o
          · rw [hdla]
            simp [mpop]
          · exact hco
          · rw [hdla]
            exact hcc
      · obtain ⟨c1, hmk⟩ := makedirs_exists_of_clear hcc
        obtain ⟨hc1A, hc1pres, hc1long⟩ := makedirs_ok_props hmk
        have hlen1 : d.length < (d ++ [b]).length := by simp
        have hc1b : FS.lookup c1 (d ++ [b]) = FS.lookup s.cache (d ++ [b]) :=
          hc1long _ hlen1
        have hc1o : FS.lookup c1 (d ++ [a]) = FS.lookup s.cache (d ++ [a]) :=
          hc1long _ (by simp)
        have hdcR : DirsClear (FS.renameFS c1 (d ++ [a]) (d ++ [b])) d := by
          intro i hi
          have hlt : (List.take (i + 1) d).length < (d ++ [a]).length := by
            simp only [List.length_take, List.length_append, List.length_cons,
              List.length_nil]
            omega
          have hlt2 : (List.take (i + 1) d).length < (d ++ [b]).length := by
            simp only [List.length_take, List.length_append, List.length_cons,
              List.length_nil]
            omega
          rw [lookup_renameFS_other _ (vpre_false_of_lt hlt) (vpre_false_of_lt hlt2)]
          exact dirsClear_of_allDirs hc1A i hi
        rcases hc1b2 : FS.lookup c1 (d ++ [b]) with _ | n3
        case some =>
          cases n3 with
          | dir m3 =>
            rw [hc1b2] at hc1b
            rw [← hc1b] at hcb
            simp [isDirN] at hcb
          | file c3 m3 =>
            have hren : rename s (d ++ [a]) (d ++ [b])
                = ({s with
                      source := FS.touch (FS.touch (FS.renameFS s.source (d ++ [a])
                        (d ++ [b])) d s.now) d s.now,
                      cache := FS.renameFS c1 (d ++ [a]) (d ++ [b]),
                      dir_mtimes := mpop (mpop s.dir_mtimes d) d,
                      file_mtimes := mpop s.file_mtimes (d ++ [a])}, .ok ()) := by
              simp [rename, hold, hnb, List.dropLast_concat, hd, hco, hmk, hc1b2]
            refine ⟨_, hren, ?_, ?_, ?_⟩
            · intro n hn
              rw [lookup_renameFS_nw _ hvno, hc1o, hco]
              exact hn
            · exact lookup_renameFS_gone _ hvno
            · intro sz off
              refine read_missing s.now sz off (by simp) ?_ ?_ ?_ ?_ ?_
              · rw [hdla]
                exact hS1d
              · exact hS1o
              · rw [hdla]
                simp [mpop]
              · exact lookup_renameFS_gone _ hvno
              · rw [hdla]
                exact hdcR
        case none =>
          have hren : rename s (d ++ [a]) (d ++ [b])
              = ({s with
                    source := FS.touch (FS.touch (FS.renameFS s.source (d ++ [a])
                      (d ++ [b])) d s.now) d s.now,
                    cache := FS.renameFS c1 (d ++ [a]) (d ++ [b]),
                    dir_mtimes := mpop (mpop s.dir_mtimes d) d,
                    file_mtimes := mpop s.file_mtimes (d ++ [a])}, .ok ()) := by
            simp [rename, hold, hnb, List.dropLast_concat, hd, hco, hmk, hc1b2]
          refine ⟨_, hren, ?_, ?_, ?_⟩
          · intro n hn
            rw [lookup_renameFS_nw _ hvno, hc1o, hco]
            exact hn
          · exact lookup_renameFS_gone _ hvno
          · intro sz off
            refine read_missing s.now sz off (by simp) ?_ ?_ ?_ ?_ ?_
            · rw [hdla]
              exact hS1d
            · exact hS1o
            · rw [hdla]
              simp [mpop]
            · exact lookup_renameFS_gone _ hvno
            · rw [hdla]
              exact hdcR

def s7 : SysState where
  source := [(["d"], .dir 10), (["d", "x"], .file [4] 5)]
  cache := [(["d"], .dir 0), (["d", "x"], .file [4] 5)]
  dir_mtimes := fun q => if q = ["d"] then some 10 else none
  file_mtimes := fun q => if q = ["d", "x"] then some 5 else none
  fetches := []
  copies := []
  now := 77

theorem C7_rename_moves_cache_witness :
    (∀ old nw s'', rename s7 old nw = (s'', .ok ()) →
        s''.file_mtimes old = none
        ∧ s''.dir_mtimes (List.dropLast old) = none
        ∧ s''.dir_mtimes (List.dropLast nw) = none)
    ∧ (∃ s', rename s7 (["d"] ++ ["x"]) (["d"] ++ ["y"]) = (s', .ok ())
        ∧ (∀ n, FS.lookup s7.cache (["d"] ++ ["x"]) = some n →
            FS.lookup s'.cache (["d"] ++ ["y"]) = some n)
        ∧ FS.lookup s'.cache (["d"] ++ ["x"]) = none
        ∧ (∀ sz off, (read s' (["d"] ++ ["x"]) sz off).2 = .error ENOENT)) :=
  C7_rename_moves_cache s7 ["d"] "x" "y" [4] 5 10
    (by decide) (by decide) (by decide) (by decide) (by decide) (by decide)

end FuseCacheMtime
